import Mathlib

/-!
# multiserver: active-object remapper, command dispatcher, credentials, relay loop

A shallow embedding of `active_object.go`, `command.go`, `auth.go` and `proxy.go`.

* A Go byte is a natural number below 256, a Go `uint16`/`uint32` a natural number
  reduced modulo `2^16`/`2^32` after every arithmetic operation.
* A Go slice is the list of its `len` visible bytes together with the bytes of the
  backing array between `len` and `cap`: a slice expression `s[lo:hi]` is checked
  against `cap`, not `len`.
* A run-time panic and a loop that never ends are the two faults of `Run`.
-/

namespace Multiserver

/-! ## Faults -/

/-- The two ways a Go function fails to return: a run-time panic (index or slice
bounds out of range) and a loop that never terminates. -/
inductive Fault where
  | panic
  | hang
  deriving DecidableEq, Repr

/-- A computation that returns a value, panics, or hangs. -/
abbrev Run (α : Type) := Except Fault α

/-- Whether a run returned. -/
def Run.returns {α : Type} : Run α → Bool
  | .ok _ => true
  | .error _ => false

/-! ## Slices and big-endian integers -/

/-- A Go `[]byte`: `bytes` are the `len(s)` elements, `spare` the elements of the
backing array from `len(s)` up to `cap(s)`. -/
structure Slice where
  bytes : List Nat
  spare : List Nat
  deriving DecidableEq, Repr

namespace Slice

/-- The backing array from the first element of the slice on. -/
def arr (d : Slice) : List Nat := d.bytes ++ d.spare

/-- Go `len(s)`. -/
def len (d : Slice) : Nat := d.bytes.length

/-- Go `cap(s)`. -/
def cap (d : Slice) : Nat := d.bytes.length + d.spare.length

/-- Go `s[lo:hi]` read as a list of `hi - lo` bytes; panics unless
`lo ≤ hi ≤ cap(s)`. -/
def slice (d : Slice) (lo hi : Nat) : Run (List Nat) :=
  if lo ≤ hi ∧ hi ≤ d.cap then .ok ((d.arr.drop lo).take (hi - lo)) else .error .panic

/-- Go `s[lo:]` read as a list of bytes; the upper bound defaults to `len(s)`, so it
panics unless `lo ≤ len(s)`. -/
def sliceFrom (d : Slice) (lo : Nat) : Run (List Nat) :=
  if lo ≤ d.len then .ok (d.bytes.drop lo) else .error .panic

end Slice

/-- Go `binary.BigEndian.Uint16(b)`: panics when `len(b) < 2`. -/
def beUint16 : List Nat → Run Nat
  | b0 :: b1 :: _ => .ok (b0 * 256 + b1)
  | _ => .error .panic

/-- Go `binary.BigEndian.Uint32(b)`: panics when `len(b) < 4`. -/
def beUint32 : List Nat → Run Nat
  | b0 :: b1 :: b2 :: b3 :: _ => .ok (((b0 * 256 + b1) * 256 + b2) * 256 + b3)
  | _ => .error .panic

/-- Overwrite the elements of `l` from index `i` on with those of `new`, as far as
`l` reaches. -/
def overwrite (l : List Nat) (i : Nat) (new : List Nat) : List Nat :=
  l.take i ++ (new.take (l.length - i)) ++ l.drop (i + new.length)

/-- Go `binary.BigEndian.PutUint16(s[lo:hi], v)`: the slice expression panics unless
`lo ≤ hi ≤ cap(s)`, the store panics when `hi - lo < 2`; the two bytes are written
into the shared backing array. -/
def putUint16 (d : Slice) (lo hi v : Nat) : Run Slice :=
  if lo ≤ hi ∧ hi ≤ d.cap then
    if 2 ≤ hi - lo then
      let a := overwrite d.arr lo [v / 256 % 256, v % 256]
      .ok ⟨a.take d.len, a.drop d.len⟩
    else .error .panic
  else .error .panic

/-- The capacity rule of the Go runtime: `grow oldLen oldCap newLen` is the capacity
of the array that `append` allocates when a slice of length `oldLen` and capacity
`oldCap` has to hold `newLen > oldCap` elements. The runtime's rule (doubling, size
classes) differs between Go versions and is a parameter of the embedding. -/
abbrev GrowCap := Nat → Nat → Nat → Nat

/-- Go `append(s[:lo], s[hi:]...)`: `s[:lo]` panics unless `lo ≤ cap(s)`, `s[hi:]`
panics unless `hi ≤ len(s)`. When the result fits the capacity the tail is moved
within the backing array and the bytes behind the new length keep their old values;
otherwise a fresh array of the capacity `grow` gives is allocated, and the bytes
behind the new length are zero. -/
def spliceOut (grow : GrowCap) (d : Slice) (lo hi : Nat) : Run Slice :=
  if lo ≤ d.cap then
    match d.sliceFrom hi with
    | .error e => .error e
    | .ok tail =>
      if lo + tail.length ≤ d.cap then
        .ok ⟨d.arr.take lo ++ tail, d.arr.drop (lo + tail.length)⟩
      else
        .ok ⟨d.arr.take lo ++ tail,
          List.replicate (grow lo d.cap (lo + tail.length) - (lo + tail.length)) 0⟩
  else .error .panic

/-! ## Peers -/

/-- The fields of `Peer` the embedded functions read or write. `aoIDs k` is the value
the Go map `p.aoIDs` yields for key `k` (`false` for a missing key). -/
structure Peer where
  username : List Nat
  isSrv : Bool
  sudoMode : Bool
  srp_s : List Nat
  srp_A : List Nat
  srp_B : List Nat
  srp_K : List Nat
  initAoReceived : Bool
  aoIDs : Nat → Bool

/-! ## `active_object.go` -/

/-- The loop `for i := uint16(0); i < countRm; i += 2` of `processAoRmAdd`, which
appends `Uint16(data[4+i:6+i])` to `aoRm`. All index arithmetic is `uint16`. The loop
variable only takes even values, so a run that has not left the loop after `32769`
tests never leaves it; `fuel` counts the remaining tests. -/
def aoRmLoop (data : Slice) (countRm : Nat) : Nat → Nat → List Nat → Run (List Nat)
  | 0, _, _ => .error .hang
  | fuel + 1, i, aoRm =>
    if i < countRm then
      match data.slice ((4 + i) % 65536) ((6 + i) % 65536) with
      | .error e => .error e
      | .ok b =>
        match beUint16 b with
        | .error e => .error e
        | .ok v => aoRmLoop data countRm fuel ((i + 2) % 65536) (aoRm ++ [v])
    else .ok aoRm

/-- The variables the addition loop of `processAoRmAdd` carries from one iteration
to the next. -/
structure AddState where
  data : Slice
  si : Nat
  initAoReceived : Bool
  aoAdd : List Nat
  deriving DecidableEq, Repr

/-- One iteration of the loop `for i := uint32(0); i < uint32(countAdd); i++` of
`processAoRmAdd`. `si` is `uint32`, the header offsets `4+countRm*2` and `6+countRm*2`
are `uint16`, and so is `countAdd-1`. -/
def aoAddStep (grow : GrowCap) (username : List Nat) (countRm countAdd : Nat)
    (st : AddState) :
    Run AddState :=
  let si := st.si
  match st.data.slice ((3 + si) % 4294967296) ((7 + si) % 4294967296) with
  | .error e => .error e
  | .ok b =>
  match beUint32 b with
  | .error e => .error e
  | .ok initDataLen =>
  match st.data.slice ((8 + si) % 4294967296) ((10 + si) % 4294967296) with
  | .error e => .error e
  | .ok b =>
  match beUint16 b with
  | .error e => .error e
  | .ok namelen =>
  match st.data.slice ((10 + si) % 4294967296) ((10 + si + namelen) % 4294967296) with
  | .error e => .error e
  | .ok name =>
    if name = username then
      if st.initAoReceived then
        match putUint16 st.data ((4 + countRm * 2) % 65536) ((6 + countRm * 2) % 65536)
            ((countAdd + 65535) % 65536) with
        | .error e => .error e
        | .ok data1 =>
        match spliceOut grow data1 si ((7 + si + initDataLen) % 4294967296) with
        | .error e => .error e
        | .ok data2 =>
          let si1 := (si + (4294967296 - (7 + initDataLen) % 4294967296)) % 4294967296
          .ok { st with data := data2, si := (si1 + 7 + initDataLen) % 4294967296 }
      else
        .ok { st with initAoReceived := true, si := (si + 7 + initDataLen) % 4294967296 }
    else
      match st.data.slice si ((2 + si) % 4294967296) with
      | .error e => .error e
      | .ok b =>
      match beUint16 b with
      | .error e => .error e
      | .ok id =>
        .ok { st with aoAdd := st.aoAdd ++ [id], si := (si + 7 + initDataLen) % 4294967296 }

/-- The addition loop of `processAoRmAdd`, run for the `n` iterations that remain
(`n = countAdd - i`; the body does not read `i`). -/
def aoAddLoop (grow : GrowCap) (username : List Nat) (countRm countAdd : Nat) :
    Nat → AddState → Run AddState
  | 0, st => .ok st
  | n + 1, st =>
    match aoAddStep grow username countRm countAdd st with
    | .error e => .error e
    | .ok st1 => aoAddLoop grow username countRm countAdd n st1

/-- The first loop over `aoAdd`: `if aoAdd[i] != 0 { p.aoIDs[aoAdd[i]] = true }`. -/
def markAdded (ids : Nat → Bool) : List Nat → Nat → Bool
  | [], k => ids k
  | a :: rest, k => markAdded (fun j => if a ≠ 0 ∧ j = a then true else ids j) rest k

/-- The second loop: `p.aoIDs[aoRm[i]] = false`. -/
def markRemoved (ids : Nat → Bool) : List Nat → Nat → Bool
  | [], k => ids k
  | r :: rest, k => markRemoved (fun j => if j = r then false else ids j) rest k

/-- Go `processAoRmAdd(p, data)`: the peer after the call and the returned slice. -/
def processAoRmAdd (grow : GrowCap) (p : Peer) (data : Slice) : Run (Peer × Slice) :=
  match data.slice 2 4 with
  | .error e => .error e
  | .ok b =>
  match beUint16 b with
  | .error e => .error e
  | .ok countRm =>
  match aoRmLoop data countRm 32769 0 [] with
  | .error e => .error e
  | .ok aoRm =>
  match data.slice ((4 + countRm * 2) % 65536) ((6 + countRm * 2) % 65536) with
  | .error e => .error e
  | .ok b =>
  match beUint16 b with
  | .error e => .error e
  | .ok countAdd =>
  match aoAddLoop grow p.username countRm countAdd countAdd
      ⟨data, 6 + countRm * 2, p.initAoReceived, []⟩ with
  | .error e => .error e
  | .ok st =>
    .ok ({ p with initAoReceived := st.initAoReceived,
                  aoIDs := markRemoved (markAdded p.aoIDs st.aoAdd) aoRm }, st.data)

/-! ## `auth.go`: stored credentials -/

/-- The `n`-th character of the alphabet of Go `base64.StdEncoding`
(`A`–`Z`, `a`–`z`, `0`–`9`, `+`, `/`), as a byte. -/
def b64Char (n : Nat) : Nat :=
  if n < 26 then 65 + n
  else if n < 52 then 97 + (n - 26)
  else if n < 62 then 48 + (n - 52)
  else if n = 62 then 43
  else 47

/-- The inverse of `b64Char`: the 6-bit value of an alphabet byte, `none` for any
other byte (Go's `decodeMap` entry `0xff`). -/
def b64Val (c : Nat) : Option Nat :=
  if 65 ≤ c ∧ c ≤ 90 then some (c - 65)
  else if 97 ≤ c ∧ c ≤ 122 then some (c - 97 + 26)
  else if 48 ≤ c ∧ c ≤ 57 then some (c - 48 + 52)
  else if c = 43 then some 62
  else if c = 47 then some 63
  else none

/-- Go `base64.StdEncoding.EncodeToString`: three bytes become four characters, the
last group is padded with `=` (byte 61). -/
def b64Encode : List Nat → List Nat
  | a :: b :: c :: rest =>
    b64Char (a / 4 % 64) :: b64Char (a % 4 * 16 + b / 16 % 16) ::
      b64Char (b % 16 * 4 + c / 64 % 4) :: b64Char (c % 64) :: b64Encode rest
  | [a, b] =>
    [b64Char (a / 4 % 64), b64Char (a % 4 * 16 + b / 16 % 16), b64Char (b % 16 * 4), 61]
  | [a] => [b64Char (a / 4 % 64), b64Char (a % 4 * 16), 61, 61]
  | [] => []

/-- The quanta of Go `base64.StdEncoding.DecodeString` on an input without line
breaks: four alphabet characters give three bytes; `=` is accepted only as the last
one or two characters of the final quantum; `none` is a `CorruptInputError`. -/
def b64DecodeQuanta : List Nat → Option (List Nat)
  | [] => some []
  | [a, b, 61, 61] =>
    match b64Val a, b64Val b with
    | some x, some y => some [(x * 4 + y / 16) % 256]
    | _, _ => none
  | [a, b, c, 61] =>
    match b64Val a, b64Val b, b64Val c with
    | some x, some y, some z => some [(x * 4 + y / 16) % 256, (y % 16 * 16 + z / 4) % 256]
    | _, _, _ => none
  | a :: b :: c :: d :: rest =>
    match b64Val a, b64Val b, b64Val c, b64Val d with
    | some x, some y, some z, some w =>
      match b64DecodeQuanta rest with
      | some out =>
        some ((x * 4 + y / 16) % 256 :: (y % 16 * 16 + z / 4) % 256 ::
          (z % 4 * 64 + w) % 256 :: out)
      | none => none
    | _, _, _, _ => none
  | _ => none

/-- Go `base64.StdEncoding.DecodeString`: carriage returns and line feeds are
skipped, the rest is decoded quantum by quantum. -/
def b64Decode (src : List Nat) : Option (List Nat) :=
  b64DecodeQuanta (src.filter (fun c => c ≠ 10 ∧ c ≠ 13))

/-- Go `strings.Split(src, sep)` for a one-byte separator: always at least one
part. -/
def splitByte (sep : Nat) : List Nat → List (List Nat)
  | [] => [[]]
  | c :: cs =>
    if c = sep then [] :: splitByte sep cs
    else
      match splitByte sep cs with
      | [] => [[c]]
      | part :: parts => (c :: part) :: parts

/-- Go `encodeVerifierAndSalt(s, v)`; byte 35 is `#`. -/
def encodeVerifierAndSalt (s v : List Nat) : List Nat :=
  b64Encode s ++ [35] ++ b64Encode v

/-- Go `decodeVerifierAndSalt(src)`: indexing the split at `[1]` panics when `src`
holds no `#`; the value is `none` when a base64 decoding returns an error. -/
def decodeVerifierAndSalt (src : List Nat) : Run (Option (List Nat × List Nat)) :=
  match splitByte 35 src with
  | sString :: vString :: _ =>
    match b64Decode sString with
    | none => .ok none
    | some s =>
      match b64Decode vString with
      | none => .ok none
      | some v => .ok (some (s, v))
  | _ => .error .panic

/-- The table `auth`: the `password` column of the row of a name, `none` when the
name has no row. -/
abbrev AuthTable := List Nat → Option (List Nat)

/-- Go `sqliteProvider.Password`: a missing row (`sql.ErrNoRows`) yields the empty
string and a nil error. -/
def sqlitePassword (t : AuthTable) (name : List Nat) : List Nat :=
  (t name).getD []

/-- Go `sqliteProvider.SetPassword(name, password)`:
`UPDATE auth SET password = ? WHERE name = ?`, which changes the row of `name` when
there is one and nothing otherwise. -/
def sqliteSetPassword (t : AuthTable) (name password : List Nat) : AuthTable :=
  fun n => if n = name ∧ (t n).isSome then some password else t n

/-- The result of the package-level `Password`: the `(verifier, salt)` pair, or
`nil, nil` with a nil error for an empty stored string, or an error. -/
inductive PasswordResult where
  | tokens (verifier salt : List Nat)
  | empty
  | err
  deriving DecidableEq, Repr

/-- Go package-level `Password(name)` over the sqlite provider; `opens` tells whether
`authDB()` succeeds. -/
def Password (opens : Bool) (t : AuthTable) (name : List Nat) : Run PasswordResult :=
  if opens then
    let pwd := sqlitePassword t name
    if pwd = [] then .ok .empty
    else
      match decodeVerifierAndSalt pwd with
      | .error e => .error e
      | .ok none => .ok .err
      | .ok (some (salt, verifier)) => .ok (.tokens verifier salt)
  else .ok .err

/-- Go package-level `SetPassword(name, verifier, salt)` over the sqlite provider:
the table afterwards and whether the returned error is nil. The call it makes is
`db.SetPassword(pwd, name)`. -/
def SetPassword (opens : Bool) (t : AuthTable) (name verifier salt : List Nat) :
    AuthTable × Bool :=
  if opens then
    let pwd := encodeVerifierAndSalt salt verifier
    (sqliteSetPassword t pwd name, true)
  else (t, false)

/-! ## `command.go` -/

/-- Go `subtle.ConstantTimeByteEq(x, y)`: `int((uint32(x^y) - 1) >> 31)`. -/
def constantTimeByteEq (x y : Nat) : Nat :=
  ((x ^^^ y) % 4294967296 + 4294967295) % 4294967296 / 2147483648

/-- The accumulation `v |= x[i] ^ y[i]` of Go `subtle.ConstantTimeCompare` over two
slices of equal length. -/
def xorFold : Nat → List Nat → List Nat → Nat
  | v, a :: x, b :: y => xorFold ((v ||| (a ^^^ b)) % 256) x y
  | v, _, _ => v

/-- Go `subtle.ConstantTimeCompare(x, y)`: `0` when the lengths differ, otherwise
`ConstantTimeByteEq` of the accumulated differences and `0`. -/
def constantTimeCompare (x y : List Nat) : Nat :=
  if x.length ≠ y.length then 0 else constantTimeByteEq (xorFold 0 x y) 0

/-- What `processPktCommand` calls outside the embedded files: the library
`github.com/HimbeerserverDE/srp`, the outcome of opening and using the storage, and
the Go runtime. -/
structure Env where
  /-- `srp.CalculateM(username, s, A, B, K)`. -/
  calculateM : List Nat → List Nat → List Nat → List Nat → List Nat → List Nat
  /-- `srp.Handshake(A, v)`: `some (B, K)`, or `none` when it returns an error. -/
  handshake : List Nat → List Nat → Option (List Nat × List Nat)
  /-- Whether `processChatMessage(src, pkt)` reports the packet as consumed. -/
  processChatMessage : Peer → List Nat → Bool
  /-- Whether `initAuthDB()` returns a nil error. -/
  dbOpens : Bool
  /-- Whether `readAuthItem` returns a nil error. -/
  readOk : Bool
  /-- Whether `modAuthItem` returns a nil error. -/
  writeOk : Bool
  /-- The capacity rule of the runtime, used by `append` in `processAoRmAdd`. -/
  growCap : GrowCap

/-- Modelled from the spec: `readAuthItem(db, name)` is not among the sources; it is
the Provider's `password(name)`, the lookup of the stored credential, which as
`sqliteProvider.Password` yields the empty string for a name without a row. -/
def readAuthItem (t : AuthTable) (name : List Nat) : List Nat :=
  sqlitePassword t name

/-- Modelled from the spec: `modAuthItem(db, name, password)` is not among the
sources; it is the Provider's `setPassword(name, password)`, which as
`sqliteProvider.SetPassword` rewrites the row of `name`. -/
def modAuthItem (t : AuthTable) (name password : List Nat) : AuthTable :=
  sqliteSetPassword t name password

/-- The state `processPktCommand` reads and writes. -/
structure World where
  src : Peer
  dst : Peer
  /-- `pkt.Data`. -/
  data : Slice
  /-- The table `auth` of the storage. -/
  auth : AuthTable
  /-- The payloads passed to `src.Send`, oldest first. -/
  sent : List (List Nat)
  /-- The number of `go processJoin(src)` statements executed. -/
  joins : Nat

/-- Go `s[lo:hi]` with `uint16` bounds, as used on `pkt.Data` in `command.go`. -/
def field16 (d : Slice) (lo hi : Nat) : Run (List Nat) :=
  d.slice (lo % 65536) (hi % 65536)

/-- The case `ToServerFirstSrp` of `processPktCommand`. -/
def caseFirstSrp (env : Env) (w : World) : Run (World × Bool) :=
  if w.src.sudoMode then
    let w1 := { w with src := { w.src with sudoMode := false } }
    match w.data.slice 2 4 with
    | .error e => .error e
    | .ok b =>
    match beUint16 b with
    | .error e => .error e
    | .ok lenS =>
    match field16 w.data 4 (4 + lenS) with
    | .error e => .error e
    | .ok s =>
    match field16 w.data (4 + lenS) (6 + lenS) with
    | .error e => .error e
    | .ok b =>
    match beUint16 b with
    | .error e => .error e
    | .ok lenV =>
    match field16 w.data (6 + lenS) (6 + lenS + lenV) with
    | .error e => .error e
    | .ok v =>
      let pwd := encodeVerifierAndSalt s v
      if ¬ env.dbOpens then .ok (w1, true)
      else if ¬ env.writeOk then .ok (w1, true)
      else .ok ({ w1 with auth := modAuthItem w1.auth w1.src.username pwd }, true)
  else .ok (w, true)

/-- The payload of the `ToClientSrpBytesSB` packet built from `s` and `B`. -/
def srpBytesSB (s B : List Nat) : List Nat :=
  [0, 96] ++ [s.length % 65536 / 256, s.length % 256] ++ s ++
    [B.length % 65536 / 256, B.length % 256] ++ B

/-- The case `ToServerSrpBytesA` of `processPktCommand`. -/
def caseSrpBytesA (env : Env) (w : World) : Run (World × Bool) :=
  if ¬ w.src.sudoMode then
    match w.data.slice 2 4 with
    | .error e => .error e
    | .ok b =>
    match beUint16 b with
    | .error e => .error e
    | .ok lenA =>
    match field16 w.data 4 (4 + lenA) with
    | .error e => .error e
    | .ok A =>
      if ¬ env.dbOpens then .ok (w, true)
      else if ¬ env.readOk then .ok (w, true)
      else
        match decodeVerifierAndSalt (readAuthItem w.auth w.src.username) with
        | .error e => .error e
        | .ok none => .ok (w, true)
        | .ok (some (s, v)) =>
          match env.handshake A v with
          | none => .ok (w, true)
          | some (B, K) =>
            .ok ({ w with
                    src := { w.src with srp_s := s, srp_A := A, srp_B := B, srp_K := K },
                    sent := w.sent ++ [srpBytesSB s B] }, true)
  else .ok (w, true)

/-- The case `ToServerSrpBytesM` of `processPktCommand`. -/
def caseSrpBytesM (env : Env) (w : World) : Run (World × Bool) :=
  if ¬ w.src.sudoMode then
    match w.data.slice 2 4 with
    | .error e => .error e
    | .ok b =>
    match beUint16 b with
    | .error e => .error e
    | .ok lenM =>
    match field16 w.data 4 (4 + lenM) with
    | .error e => .error e
    | .ok M =>
      let M2 := env.calculateM w.src.username w.src.srp_s w.src.srp_A w.src.srp_B w.src.srp_K
      if constantTimeCompare M M2 = 1 then
        .ok ({ w with src := { w.src with sudoMode := true }, sent := w.sent ++ [[0, 4]] }, true)
      else
        .ok ({ w with sent := w.sent ++ [[0, 5]] }, true)
  else .ok (w, true)

/-- Go `processPktCommand(src, dst, pkt)`: the state afterwards and the returned
boolean (`true`: the packet is consumed and not forwarded). -/
def processPktCommand (env : Env) (w : World) : Run (World × Bool) :=
  match w.data.slice 0 2 with
  | .error e => .error e
  | .ok b =>
  match beUint16 b with
  | .error e => .error e
  | .ok cmd =>
    if w.src.isSrv then
      if cmd = 0x31 then
        match processAoRmAdd env.growCap w.dst w.data with
        | .error e => .error e
        | .ok (dst1, data1) => .ok ({ w with dst := dst1, data := data1 }, false)
      else .ok (w, false)
    else
      if cmd = 0x32 then .ok (w, env.processChatMessage w.src w.data.bytes)
      else if cmd = 0x43 then .ok ({ w with joins := w.joins + 1 }, false)
      else if cmd = 0x50 then caseFirstSrp env w
      else if cmd = 0x51 then caseSrpBytesA env w
      else if cmd = 0x52 then caseSrpBytesM env w
      else .ok (w, false)

/-! ## `proxy.go` -/

/-- What `src.Recv()` returns. -/
inductive Recv where
  | pkt (data : List Nat)
  | closed
  | failed
  deriving DecidableEq, Repr

/-- What one iteration of the loop of `Proxy` observes from outside: the result of
`src.Recv()`, the values of `src.Forward()` and `dst.Forward()`, whether
`processChatMessage` reports the packet as handled, and whether `dst.Send` returns
an error. -/
structure Tick where
  recv : Recv
  srcForward : Bool
  dstForward : Bool
  chatHandled : Bool
  sendFails : Bool
  deriving DecidableEq, Repr

/-- The calls `Proxy` makes that are visible outside it. -/
inductive Event where
  | log
  | leave
  | send (data : List Nat)
  | sendDisco
  | close
  deriving DecidableEq, Repr

/-- How a run of `Proxy` stands after a sequence of iterations. -/
inductive ProxyRun where
  /-- The `return` taken when `src.Forward()` is false. -/
  | returnedEarly (events : List Event)
  /-- The loop was left by `break` and the function ran to its end. -/
  | returned (events : List Event)
  | panicked (events : List Event)
  /-- The loop is waiting in `src.Recv()` for the next packet. -/
  | receiving (events : List Event)
  deriving DecidableEq, Repr

/-- The condition `pkt.Data[0] == 0x00 && pkt.Data[1] == 0x32 && !src.IsSrv()` of
`Proxy`; an index out of range panics. -/
def isClientChat (srcIsSrv : Bool) : List Nat → Run Bool
  | [] => .error .panic
  | [b0] => if b0 = 0 then .error .panic else .ok false
  | b0 :: b1 :: _ => .ok (b0 = 0 ∧ b1 = 0x32 ∧ ¬ srcIsSrv)

/-- Go `Proxy(src, dst)` over the iterations `ticks`, having made the calls `events`
so far. -/
def Proxy (srcIsSrv : Bool) : List Tick → List Event → ProxyRun
  | [], events => .receiving events
  | t :: ticks, events =>
    if ¬ t.srcForward then .returnedEarly events
    else if ¬ t.dstForward then .returned (events ++ [.sendDisco, .close])
    else
      match t.recv with
      | .closed =>
        if ¬ srcIsSrv then .returned (events ++ [.log, .leave, .sendDisco, .close])
        else .returned (events ++ [.log, .sendDisco, .close])
      | .failed => Proxy srcIsSrv ticks (events ++ [.log])
      | .pkt data =>
        match isClientChat srcIsSrv data with
        | .error _ => .panicked events
        | .ok chat =>
          if chat ∧ t.chatHandled then Proxy srcIsSrv ticks events
          else if t.sendFails then Proxy srcIsSrv ticks (events ++ [.send data, .log])
          else Proxy srcIsSrv ticks (events ++ [.send data])

/-! ## The wire layout of an active-object remove/add payload

These definitions describe the payloads `processAoRmAdd` is written for; they are
used to state properties and are not part of the embedded code. -/

/-- The two bytes of a big-endian 16-bit integer. -/
def u16be (v : Nat) : List Nat := [v / 256 % 256, v % 256]

/-- The four bytes of a big-endian 32-bit integer. -/
def u32be (v : Nat) : List Nat :=
  [v / 16777216 % 256, v / 65536 % 256, v / 256 % 256, v % 256]

/-- One addition entry: a 16-bit id, a type byte, and initialization data made of a
version byte, a length-prefixed name and further bytes. -/
structure AoEntry where
  id : Nat
  kind : Nat
  version : Nat
  name : List Nat
  rest : List Nat
  deriving DecidableEq, Repr

/-- The length of the initialization data of an entry. -/
def AoEntry.initDataLen (e : AoEntry) : Nat := 3 + e.name.length + e.rest.length

/-- The `7 + initDataLen` bytes of an entry. -/
def AoEntry.encode (e : AoEntry) : List Nat :=
  u16be e.id ++ [e.kind] ++ u32be e.initDataLen ++ [e.version] ++
    u16be e.name.length ++ e.name ++ e.rest

/-- The bytes of a list of entries, one after the other. -/
def encodeEntries : List AoEntry → List Nat
  | [] => []
  | e :: es => e.encode ++ encodeEntries es

/-- The bytes of a list of 16-bit ids. -/
def encodeIds : List Nat → List Nat
  | [] => []
  | r :: rs => u16be r ++ encodeIds rs

/-- A remove/add payload: the removed ids and the addition entries. -/
structure AoPayload where
  removed : List Nat
  added : List AoEntry
  deriving DecidableEq, Repr

/-- The packet bytes of a payload: the command `00 31`, the removal count and ids,
the addition count and entries. -/
def AoPayload.encode (P : AoPayload) : List Nat :=
  [0, 0x31] ++ u16be P.removed.length ++ encodeIds P.removed ++
    u16be P.added.length ++ encodeEntries P.added

/-- Every field of the payload fits the width the layout gives it and the packet is
shorter than `2^32` bytes. -/
def AoPayload.Fits (P : AoPayload) : Prop :=
  P.removed.length < 65536 ∧ (∀ r ∈ P.removed, r < 65536) ∧ P.added.length < 65536 ∧
    (∀ e ∈ P.added, e.id < 65536 ∧ e.name.length < 65536) ∧ P.encode.length < 4294967296

instance (P : AoPayload) : Decidable P.Fits := by
  unfold AoPayload.Fits; infer_instance

/-- The removal count and the addition count a reader of the layout finds in the
header of `bs`. -/
def readCounts (bs : List Nat) : Option (Nat × Nat) :=
  match bs.drop 2 with
  | r0 :: r1 :: rest =>
    match rest.drop ((r0 * 256 + r1) * 2) with
    | a0 :: a1 :: _ => some (r0 * 256 + r1, a0 * 256 + a1)
    | _ => none
  | _ => none

/-- The number of addition entries that fill `bs` exactly, each `7 + initDataLen`
bytes long; `none` when `bs` is not a sequence of whole entries. `fuel` bounds the
number of entries. -/
def entriesPresent : Nat → List Nat → Option Nat
  | 0, bs => if bs = [] then some 0 else none
  | fuel + 1, bs =>
    match bs with
    | [] => some 0
    | _ :: _ :: _ :: l0 :: l1 :: l2 :: l3 :: rest =>
      if ((l0 * 256 + l1) * 256 + l2) * 256 + l3 ≤ rest.length then
        (entriesPresent fuel (rest.drop (((l0 * 256 + l1) * 256 + l2) * 256 + l3))).map
          (fun n => n + 1)
      else none
    | _ => none

/-- The bytes of `bs` behind the addition-count field. -/
def entryBytes (bs : List Nat) : List Nat :=
  match readCounts bs with
  | some (countRm, _) => bs.drop (6 + countRm * 2)
  | none => []

/-- The entries of `es` that `processAoRmAdd` leaves in the packet for a user `u`:
an entry named `u` stays only if it is the first one and none was seen before. -/
def keptEntries (u : List Nat) : Bool → List AoEntry → List AoEntry
  | _, [] => []
  | seen, e :: es =>
    if e.name = u then
      if seen then keptEntries u true es else e :: keptEntries u true es
    else e :: keptEntries u seen es

/-- Whether some entry of `es` named `u` is a repeated one. -/
def anySpliced (u : List Nat) : Bool → List AoEntry → Bool
  | _, [] => false
  | seen, e :: es =>
    if e.name = u then
      if seen then true else anySpliced u true es
    else anySpliced u seen es

/-- The ids of the entries not named `u`, in order. -/
def genericIds (u : List Nat) : List AoEntry → List Nat
  | [] => []
  | e :: es => if e.name = u then genericIds u es else e.id :: genericIds u es

/-- Whether an entry named `u` has been seen once `es` is read. -/
def seenAfter (u : List Nat) (seen : Bool) (es : List AoEntry) : Bool :=
  seen || es.any (fun e => decide (e.name = u))

/-- The packet bytes `processAoRmAdd` is expected to return for the payload `P`, a
user `u` and the flag `seen`: the removal list as it was, the addition count lowered
by one when an entry was cut out, and the entries that stay. -/
def AoPayload.rewritten (u : List Nat) (seen : Bool) (P : AoPayload) : List Nat :=
  [0, 0x31] ++ u16be P.removed.length ++ encodeIds P.removed ++
    u16be (if anySpliced u seen P.added then P.added.length - 1 else P.added.length) ++
    encodeEntries (keptEntries u seen P.added)

/-! ## The wire layout of the authentication packets

Used to state properties; not part of the embedded code. -/

/-- A `ToServerSrpBytesM` packet: the command `00 52` and the length-prefixed
proof. -/
def srpBytesMPacket (M : List Nat) : List Nat := [0, 0x52] ++ u16be M.length ++ M

/-- A `ToServerSrpBytesA` packet: the command `00 51` and the length-prefixed
client ephemeral value. -/
def srpBytesAPacket (A : List Nat) : List Nat := [0, 0x51] ++ u16be A.length ++ A

/-- A `ToServerFirstSrp` packet: the command `00 50`, the length-prefixed salt and
the length-prefixed verifier. -/
def firstSrpPacket (s v : List Nat) : List Nat :=
  [0, 0x50] ++ u16be s.length ++ s ++ u16be v.length ++ v

/-- Every element is a byte. -/
def IsBytes (l : List Nat) : Prop := ∀ b ∈ l, b < 256

instance (l : List Nat) : Decidable (IsBytes l) := by
  unfold IsBytes; infer_instance

/-- The packets of `pkts` dispatched one after the other for the same pair of peers,
each in a buffer without spare capacity. -/
def dispatchAll (env : Env) : World → List (List Nat) → Run World
  | w, [] => .ok w
  | w, pkt :: rest =>
    match processPktCommand env { w with data := ⟨pkt, []⟩ } with
    | .error e => .error e
    | .ok (w1, _) => dispatchAll env w1 rest

/-! ## `auth.go`: the postgres provider -/

/-- Go `utf8.DecodeRuneInString` on a non-empty string: the rune at its start and the
number of bytes it takes; a byte that starts no valid encoding gives `RuneError`
(`U+FFFD`) and the width 1. -/
def decodeRune : List Nat → Nat × Nat
  | [] => (0xFFFD, 1)
  | b0 :: rest =>
    if b0 < 0x80 then (b0, 1)
    else if 0xC2 ≤ b0 ∧ b0 ≤ 0xDF then
      match rest with
      | b1 :: _ =>
        if 0x80 ≤ b1 ∧ b1 ≤ 0xBF then (b0 % 32 * 64 + b1 % 64, 2) else (0xFFFD, 1)
      | _ => (0xFFFD, 1)
    else if 0xE0 ≤ b0 ∧ b0 ≤ 0xEF then
      match rest with
      | b1 :: b2 :: _ =>
        if (if b0 = 0xE0 then 0xA0 else 0x80) ≤ b1 ∧ b1 ≤ (if b0 = 0xED then 0x9F else 0xBF) ∧
            0x80 ≤ b2 ∧ b2 ≤ 0xBF then
          (b0 % 16 * 4096 + b1 % 64 * 64 + b2 % 64, 3)
        else (0xFFFD, 1)
      | _ => (0xFFFD, 1)
    else if 0xF0 ≤ b0 ∧ b0 ≤ 0xF4 then
      match rest with
      | b1 :: b2 :: b3 :: _ =>
        if (if b0 = 0xF0 then 0x90 else 0x80) ≤ b1 ∧ b1 ≤ (if b0 = 0xF4 then 0x8F else 0xBF) ∧
            0x80 ≤ b2 ∧ b2 ≤ 0xBF ∧ 0x80 ≤ b3 ∧ b3 ≤ 0xBF then
          (b0 % 8 * 262144 + b1 % 64 * 4096 + b2 % 64 * 64 + b3 % 64, 4)
        else (0xFFFD, 1)
      | _ => (0xFFFD, 1)
    else (0xFFFD, 1)

/-- The runes of a string, read from left to right; `fuel` bounds their number. -/
def stringToRunesAux : Nat → List Nat → List Nat
  | 0, _ => []
  | _ + 1, [] => []
  | fuel + 1, b :: rest =>
    (decodeRune (b :: rest)).1 ::
      stringToRunesAux fuel ((b :: rest).drop (decodeRune (b :: rest)).2)

/-- Go `[]rune(s)`. -/
def stringToRunes (s : List Nat) : List Nat := stringToRunesAux s.length s

/-- Go `utf8.AppendRune`: the UTF-8 bytes of a rune; a surrogate or a value above
`U+10FFFF` is written as `RuneError`. -/
def encodeRune (r : Nat) : List Nat :=
  if r < 0x80 then [r]
  else if r < 0x800 then [0xC0 + r / 64, 0x80 + r % 64]
  else if 0x10FFFF < r ∨ (0xD800 ≤ r ∧ r ≤ 0xDFFF) then [0xEF, 0xBF, 0xBD]
  else if r < 0x10000 then [0xE0 + r / 4096, 0x80 + r / 64 % 64, 0x80 + r % 64]
  else [0xF0 + r / 262144, 0x80 + r / 4096 % 64, 0x80 + r / 64 % 64, 0x80 + r % 64]

/-- Go `string(runes)`. -/
def runesToString : List Nat → List Nat
  | [] => []
  | r :: rs => encodeRune r ++ runesToString rs

/-- Go `sqliteProvider.CreateUser(name, password)`: `INSERT INTO auth`; `name` is the
primary key, so on a name that has a row the insert fails and the table stays. -/
def sqliteCreateUser (t : AuthTable) (name password : List Nat) : AuthTable :=
  fun n => if n = name ∧ (t n).isNone then some password else t n

/-- Go `postgresProvider.CreateUser(name, password)`: `INSERT INTO auth` of the
password behind the prefix `#1#`. The table holds one string per name: on a name
that has a row already, which the sequences considered exclude, the row stays. -/
def postgresCreateUser (t : AuthTable) (name password : List Nat) : AuthTable :=
  fun n => if n = name ∧ (t n).isNone then some ([35, 49, 35] ++ password) else t n

/-- Go `postgresProvider.SetPassword(name, password)`:
`UPDATE auth SET password = $1 WHERE name = $2`. -/
def postgresSetPassword (t : AuthTable) (name password : List Nat) : AuthTable :=
  fun n => if n = name ∧ (t n).isSome then some password else t n

/-- Go `postgresProvider.Password(name)`: a missing row leaves `pwd` empty; the slice
expression `[]rune(pwd)[3:]` panics when `pwd` has fewer than three runes. -/
def postgresPassword (t : AuthTable) (name : List Nat) : Run (List Nat) :=
  let runes := stringToRunes ((t name).getD [])
  if 3 ≤ runes.length then .ok (runesToString (runes.drop 3)) else .error .panic

/-- A call of the provider interface. -/
inductive ProviderCall where
  | createUser (name password : List Nat)
  | setPassword (name password : List Nat)
  | password (name : List Nat)
  deriving DecidableEq, Repr

/-- A sequence of calls on the sqlite provider: the table afterwards and the strings
the `Password` calls returned, oldest first. -/
def runSqlite : AuthTable → List ProviderCall → List (List Nat) → Run (AuthTable × List (List Nat))
  | t, [], out => .ok (t, out)
  | t, .createUser n p :: rest, out => runSqlite (sqliteCreateUser t n p) rest out
  | t, .setPassword n p :: rest, out => runSqlite (sqliteSetPassword t n p) rest out
  | t, .password n :: rest, out => runSqlite t rest (out ++ [sqlitePassword t n])

/-- A sequence of calls on the postgres provider. -/
def runPostgres : AuthTable → List ProviderCall → List (List Nat) →
    Run (AuthTable × List (List Nat))
  | t, [], out => .ok (t, out)
  | t, .createUser n p :: rest, out => runPostgres (postgresCreateUser t n p) rest out
  | t, .setPassword n p :: rest, out => runPostgres (postgresSetPassword t n p) rest out
  | t, .password n :: rest, out =>
    match postgresPassword t n with
    | .error e => .error e
    | .ok s => runPostgres t rest (out ++ [s])

/-! ## Descriptions used to state properties of `Proxy` and of the handshake -/

/-- The calls a run of `Proxy` makes in the iterations `ticks` when none of them ends
the loop; `none` when one of them does: a forwarding flag is false, the receive
returns `ErrClosed`, or the test for a chat message indexes outside the packet (a
packet without a byte, or of the single byte `00`). -/
def relayed (srcIsSrv : Bool) : List Tick → Option (List Event)
  | [] => some []
  | t :: ticks =>
    if t.srcForward = true ∧ t.dstForward = true then
      match t.recv with
      | .closed => none
      | .failed => (relayed srcIsSrv ticks).map fun evs => Event.log :: evs
      | .pkt data =>
        match isClientChat srcIsSrv data with
        | .error _ => none
        | .ok chat =>
          (relayed srcIsSrv ticks).map fun evs =>
            (if chat = true ∧ t.chatHandled = true then []
             else if t.sendFails = true then [Event.send data, Event.log]
             else [Event.send data]) ++ evs
    else none

/-- Two peer states hold the same name, side and handshake values. -/
def sameSession (a b : Peer) : Prop :=
  a.username = b.username ∧ a.isSrv = b.isSrv ∧ a.srp_s = b.srp_s ∧ a.srp_A = b.srp_A ∧
    a.srp_B = b.srp_B ∧ a.srp_K = b.srp_K

/-! ## Concrete peers and packets used in evaluations -/

/-- A runtime that allocates exactly the capacity `append` needs. On the encoding of a
payload `append` never allocates, and the result is the same under every rule
(`processAoRmAdd_encoded`). -/
def tightCap : GrowCap := fun _ _ newLen => newLen

/-- A client peer named `ab` with an empty object set; `seen` is `initAoReceived`. -/
def peerAb (seen : Bool) : Peer :=
  { username := [97, 98], isSrv := false, sudoMode := false, srp_s := [], srp_A := [],
    srp_B := [], srp_K := [], initAoReceived := seen, aoIDs := fun _ => false }

/-- An addition entry with id `id` for the player `ab`. -/
def selfEntry (id : Nat) : AoEntry :=
  { id := id, kind := 101, version := 1, name := [97, 98], rest := [] }

/-- An addition entry with id `id` for an object named `ac`. -/
def otherEntry (id : Nat) : AoEntry :=
  { id := id, kind := 101, version := 1, name := [97, 99], rest := [] }

/-- No removals, two entries for the player `ab`. -/
def twoSelfPayload : AoPayload := ⟨[], [selfEntry 1, selfEntry 2]⟩

/-- The removals `5` and `7`, and one entry with id `7` for another object. -/
def removeAddPayload : AoPayload := ⟨[5, 7], [otherEntry 7]⟩

/-- A removal list of 32765 ids and one entry for the player `ab`. -/
def longRemovalPayload : AoPayload := ⟨List.replicate 32765 0, [selfEntry 1]⟩

/-- One removal, an entry for another object, one for the player `ab`, and another
one for another object. -/
def mixedPayload : AoPayload := ⟨[9], [otherEntry 3, selfEntry 1, otherEntry 4]⟩

/-- A stand-in for the library and the storage: `calculateM` concatenates its
arguments, `handshake` answers with the verifier and the client value, chat messages
are not consumed, every storage call succeeds, and `append` allocates no spare
capacity. -/
def demoEnv : Env :=
  { calculateM := fun I s A B K => I ++ s ++ A ++ B ++ K
    handshake := fun A v => some (v, A)
    processChatMessage := fun _ _ => false
    dbOpens := true
    readOk := true
    writeOk := true
    growCap := tightCap }

/-- The server-side peer of a pairing. -/
def serverPeer : Peer :=
  { username := [], isSrv := true, sudoMode := false, srp_s := [], srp_A := [],
    srp_B := [], srp_K := [], initAoReceived := false, aoIDs := fun _ => false }

/-- A storage without any row. -/
def noCredentials : AuthTable := fun _ => none

/-- A storage with one row: the user `ab` with salt `01` and verifier `02`. -/
def abCredentials : AuthTable :=
  fun n => if n = [97, 98] then some (encodeVerifierAndSalt [1] [2]) else none

/-- The state in which the client peer `p` has sent the packet `data`. -/
def clientWorld (p : Peer) (data : List Nat) (auth : AuthTable) : World :=
  { src := p, dst := serverPeer, data := ⟨data, []⟩, auth := auth, sent := [], joins := 0 }

/-- The client peer `ab` with the given `sudoMode` and stored handshake values. -/
def peerAbAuth (inSudo : Bool) (s A B K : List Nat) : Peer :=
  { username := [97, 98], isSrv := false, sudoMode := inSudo, srp_s := s, srp_A := A,
    srp_B := B, srp_K := K, initAoReceived := false, aoIDs := fun _ => false }

/-- A removal list of 32765 ids, an entry for the player `ab` and one for another
object behind it. -/
def longRemovalMixedPayload : AoPayload :=
  ⟨List.replicate 32765 0, [selfEntry 1, otherEntry 3]⟩

/-- No removals, an entry for the player `ab` and two entries for other objects
behind it. -/
def selfFirstPayload : AoPayload := ⟨[], [selfEntry 1, otherEntry 3, otherEntry 4]⟩

/-- The client peer `ab`, outside sudo mode and holding no handshake values, with the
storage that knows `ab`, before any packet. -/
def freshWorld : World := clientWorld (peerAbAuth false [] [] [] []) [] abCredentials

/-- The state after the peer of `freshWorld` has sent `SrpBytesA` with the value
`09 09` and then `SrpBytesM` with the wrong proof `00`, under `demoEnv`: the salt
`01`, the value `09 09`, the server value `02` and the key `09 09` are stored, and
the challenge and a denial have been sent. -/
def deniedWorld : World :=
  { src := peerAbAuth false [1] [9, 9] [2] [9, 9], dst := serverPeer,
    data := ⟨srpBytesMPacket [0], []⟩, auth := abCredentials,
    sent := [srpBytesSB [1] [2], [0, 5]], joins := 0 }

/-- A runtime that doubles the capacity when `append` has to allocate, and allocates
what is needed when that is more. -/
def doubleCap : GrowCap :=
  fun _ oldCap newLen => if 2 * oldCap < newLen then newLen else 2 * oldCap

/-- A packet of 136 bytes announcing two entries; the first is for the player `ab` and
gives its initialization-data length as `FF FF FF F3`, so that `7+si+initDataLen`
wraps to `0` in `uint32`. -/
def wrapPacket : List Nat :=
  [0, 49, 0, 0, 0, 2, 0, 1, 0, 255, 255, 255, 243, 1, 0, 2, 97, 98] ++ List.replicate 118 0

/-! ## Lemmas on `processAoRmAdd` -/

theorem beUint16_u16be (v : Nat) : beUint16 (u16be v) = .ok (v % 65536) := by
  simp only [u16be, beUint16]
  congr 1
  omega

theorem beUint32_u32be (v : Nat) : beUint32 (u32be v) = .ok (v % 4294967296) := by
  simp only [u32be, beUint32]
  congr 1
  omega

theorem slice_mid (d : Slice) (a m b : List Nat) (h : d.arr = a ++ m ++ b) (lo hi : Nat)
    (hlo : lo = a.length) (hhi : hi = a.length + m.length) :
    d.slice lo hi = .ok m := by
  subst hlo hhi
  have hc : d.cap = a.length + m.length + b.length := by
    have := congrArg List.length h
    simp [Slice.arr] at this
    simp only [Slice.cap]; omega
  unfold Slice.slice
  rw [if_pos (by omega), h]
  simp

theorem u16be_length (v : Nat) : (u16be v).length = 2 := rfl
theorem u32be_length (v : Nat) : (u32be v).length = 4 := rfl

theorem entry_encode_length (e : AoEntry) : e.encode.length = 7 + e.initDataLen := by
  simp [AoEntry.encode, AoEntry.initDataLen, u16be_length, u32be_length]; omega

/-- The four reads of one iteration, for an entry that sits at offset `pre.length`. -/
theorem entry_reads (d : Slice) (pre tl : List Nat) (e : AoEntry)
    (hb : d.bytes = pre ++ e.encode ++ tl) (hlen : d.bytes.length < 4294967296) :
    d.slice ((3 + pre.length) % 4294967296) ((7 + pre.length) % 4294967296)
        = .ok (u32be e.initDataLen) ∧
    d.slice ((8 + pre.length) % 4294967296) ((10 + pre.length) % 4294967296)
        = .ok (u16be e.name.length) ∧
    (∀ n, n = e.name.length →
      d.slice ((10 + pre.length) % 4294967296) ((10 + pre.length + n) % 4294967296)
        = .ok e.name) ∧
    d.slice pre.length ((2 + pre.length) % 4294967296) = .ok (u16be e.id) := by
  have hl : pre.length + (7 + e.initDataLen) + tl.length < 4294967296 := by
    have := congrArg List.length hb
    simp only [List.length_append, entry_encode_length] at this
    omega
  have hi : e.initDataLen = 3 + e.name.length + e.rest.length := rfl
  refine ⟨?_, ?_, ?_, ?_⟩
  · rw [Nat.mod_eq_of_lt (by omega), Nat.mod_eq_of_lt (by omega)]
    exact slice_mid d (pre ++ u16be e.id ++ [e.kind]) _
      ([e.version] ++ u16be e.name.length ++ e.name ++ e.rest ++ tl ++ d.spare)
      (by simp [Slice.arr, hb, AoEntry.encode]) _ _
      (by simp [u16be_length]; omega) (by simp [u16be_length, u32be_length]; omega)
  · rw [Nat.mod_eq_of_lt (by omega), Nat.mod_eq_of_lt (by omega)]
    exact slice_mid d (pre ++ u16be e.id ++ [e.kind] ++ u32be e.initDataLen ++ [e.version]) _
      (e.name ++ e.rest ++ tl ++ d.spare)
      (by simp [Slice.arr, hb, AoEntry.encode]) _ _
      (by simp [u16be_length, u32be_length]; omega)
      (by simp [u16be_length, u32be_length]; omega)
  · intro n hn
    subst hn
    rw [Nat.mod_eq_of_lt (by omega), Nat.mod_eq_of_lt (by omega)]
    exact slice_mid d (pre ++ u16be e.id ++ [e.kind] ++ u32be e.initDataLen ++ [e.version]
        ++ u16be e.name.length) _ (e.rest ++ tl ++ d.spare)
      (by simp [Slice.arr, hb, AoEntry.encode]) _ _
      (by simp [u16be_length, u32be_length]; omega)
      (by simp [u16be_length, u32be_length]; omega)
  · rw [Nat.mod_eq_of_lt (by omega)]
    exact slice_mid d pre _
      ([e.kind] ++ u32be e.initDataLen ++ [e.version] ++ u16be e.name.length ++ e.name
        ++ e.rest ++ tl ++ d.spare)
      (by simp [Slice.arr, hb, AoEntry.encode]) _ _ rfl (by simp [u16be_length]; omega)


theorem overwrite_length (l : List Nat) (i : Nat) (new : List Nat)
    (h : i + new.length ≤ l.length) : (overwrite l i new).length = l.length := by
  simp only [overwrite, List.length_append, List.length_take, List.length_drop]
  omega

theorem overwrite_append (l X : List Nat) (i : Nat) (new : List Nat)
    (h : i + new.length ≤ l.length) : overwrite (l ++ X) i new = overwrite l i new ++ X := by
  have h1 : List.take i (l ++ X) = List.take i l := by
    rw [List.take_append_of_le_length (by omega)]
  have h2 : List.take ((l ++ X).length - i) new = new := by
    apply List.take_of_length_le; simp only [List.length_append]; omega
  have h3 : List.take (l.length - i) new = new := by
    apply List.take_of_length_le; omega
  have h4 : List.drop (i + new.length) (l ++ X) = List.drop (i + new.length) l ++ X := by
    rw [List.drop_append_of_le_length h]
  simp only [overwrite, h1, h2, h3, h4, List.append_assoc]

theorem overwrite_overwrite (l : List Nat) (i : Nat) (new : List Nat)
    (h : i + new.length ≤ l.length) : overwrite (overwrite l i new) i new = overwrite l i new := by
  have hl := overwrite_length l i new h
  have e1 : List.take (l.length - i) new = new := List.take_of_length_le (by omega)
  have t1 : List.take i (overwrite l i new) = List.take i l := by
    simp only [overwrite, e1, List.append_assoc]
    rw [List.take_append_of_le_length (by simp; omega)]
    simp
  have t2 : List.drop (i + new.length) (overwrite l i new) = List.drop (i + new.length) l := by
    simp only [overwrite, e1]
    have hlen : (List.take i l ++ new).length = i + new.length := by
      simp only [List.length_append, List.length_take]; omega
    have := List.drop_left (List.take i l ++ new) (List.drop (i + new.length) l)
    rw [hlen] at this
    exact this
  show List.take i (overwrite l i new) ++ List.take ((overwrite l i new).length - i) new
      ++ List.drop (i + new.length) (overwrite l i new) = _
  rw [t1, t2, hl]
  rfl

theorem aoAddStep_generic (grow : GrowCap) (u : List Nat) (cRm cAdd : Nat) (d : Slice) (pre tl : List Nat)
    (e : AoEntry) (seen : Bool) (acc : List Nat)
    (hb : d.bytes = pre ++ e.encode ++ tl) (hlen : d.bytes.length < 4294967296)
    (hid : e.id < 65536) (hname : e.name.length < 65536) (hne : e.name ≠ u) :
    aoAddStep grow u cRm cAdd ⟨d, pre.length, seen, acc⟩
      = .ok ⟨d, pre.length + e.encode.length, seen, acc ++ [e.id]⟩ := by
  obtain ⟨h1, h2, h3, h4⟩ := entry_reads d pre tl e hb hlen
  have hl : pre.length + (7 + e.initDataLen) + tl.length < 4294967296 := by
    have := congrArg List.length hb
    simp only [List.length_append, entry_encode_length] at this
    omega
  have h3' := h3 _ rfl
  have m1 : e.initDataLen % 4294967296 = e.initDataLen := Nat.mod_eq_of_lt (by omega)
  have m2 : e.name.length % 65536 = e.name.length := Nat.mod_eq_of_lt hname
  have m3 : e.id % 65536 = e.id := Nat.mod_eq_of_lt hid
  have m4 : (pre.length + 7 + e.initDataLen) % 4294967296 = pre.length + e.encode.length := by
    rw [entry_encode_length]; omega
  simp only [aoAddStep, h1, beUint32_u32be, m1, h2, beUint16_u16be, m2, h3', hne, if_false,
    h4, m3, m4]

theorem aoAddStep_first (grow : GrowCap) (u : List Nat) (cRm cAdd : Nat) (d : Slice) (pre tl : List Nat)
    (e : AoEntry) (acc : List Nat)
    (hb : d.bytes = pre ++ e.encode ++ tl) (hlen : d.bytes.length < 4294967296)
    (hname : e.name.length < 65536) (hself : e.name = u) :
    aoAddStep grow u cRm cAdd ⟨d, pre.length, false, acc⟩
      = .ok ⟨d, pre.length + e.encode.length, true, acc⟩ := by
  subst hself
  obtain ⟨h1, h2, h3, _⟩ := entry_reads d pre tl e hb hlen
  have hl : pre.length + (7 + e.initDataLen) + tl.length < 4294967296 := by
    have := congrArg List.length hb
    simp only [List.length_append, entry_encode_length] at this
    omega
  have h3' := h3 _ rfl
  have m1 : e.initDataLen % 4294967296 = e.initDataLen := Nat.mod_eq_of_lt (by omega)
  have m2 : e.name.length % 65536 = e.name.length := Nat.mod_eq_of_lt hname
  have m4 : (pre.length + 7 + e.initDataLen) % 4294967296 = pre.length + e.encode.length := by
    rw [entry_encode_length]; omega
  simp only [aoAddStep, h1, beUint32_u32be, m1, h2, beUint16_u16be, m2, h3', if_true,
    m4, Bool.false_eq_true, if_false]

theorem aoAddStep_repeated (grow : GrowCap) (u : List Nat) (cRm cAdd : Nat) (d : Slice) (pre tl : List Nat)
    (e : AoEntry) (acc : List Nat)
    (hb : d.bytes = pre ++ e.encode ++ tl) (hlen : d.bytes.length < 4294967296)
    (hname : e.name.length < 65536) (hself : e.name = u)
    (hRm : cRm ≤ 32764) (hpre : 6 + cRm * 2 ≤ pre.length) :
    ∃ spare1, spare1.length = e.encode.length + d.spare.length ∧
    aoAddStep grow u cRm cAdd ⟨d, pre.length, true, acc⟩
      = .ok ⟨⟨overwrite pre (4 + cRm * 2) (u16be ((cAdd + 65535) % 65536)) ++ tl, spare1⟩,
          pre.length, true, acc⟩ := by
  subst hself
  obtain ⟨h1, h2, h3, _⟩ := entry_reads d pre tl e hb hlen
  have hl : pre.length + (7 + e.initDataLen) + tl.length < 4294967296 := by
    have := congrArg List.length hb
    simp only [List.length_append, entry_encode_length] at this
    omega
  have h3' := h3 _ rfl
  have m1 : e.initDataLen % 4294967296 = e.initDataLen := Nat.mod_eq_of_lt (by omega)
  have m2 : e.name.length % 65536 = e.name.length := Nat.mod_eq_of_lt hname
  have m5 : (4 + cRm * 2) % 65536 = 4 + cRm * 2 := Nat.mod_eq_of_lt (by omega)
  have m6 : (6 + cRm * 2) % 65536 = 6 + cRm * 2 := Nat.mod_eq_of_lt (by omega)
  have m7 : (7 + pre.length + e.initDataLen) % 4294967296 = pre.length + e.encode.length := by
    rw [entry_encode_length]; omega
  have m8 : ((pre.length + (4294967296 - (7 + e.initDataLen) % 4294967296)) % 4294967296 + 7
      + e.initDataLen) % 4294967296 = pre.length := by omega
  set new := u16be ((cAdd + 65535) % 65536) with hnew
  have hnl : new.length = 2 := rfl
  set pre1 := overwrite pre (4 + cRm * 2) new with hpre1
  have hp1 : pre1.length = pre.length := overwrite_length _ _ _ (by omega)
  have harr : overwrite d.arr (4 + cRm * 2) new = pre1 ++ (e.encode ++ tl ++ d.spare) := by
    have : d.arr = pre ++ (e.encode ++ tl ++ d.spare) := by simp [Slice.arr, hb]
    rw [this, overwrite_append _ _ _ _ (by omega)]
  have hput : putUint16 d (4 + cRm * 2) (6 + cRm * 2) ((cAdd + 65535) % 65536)
      = .ok ⟨pre1 ++ e.encode ++ tl, d.spare⟩ := by
    have hcap : 6 + cRm * 2 ≤ d.cap := by
      simp only [Slice.cap, hb, List.length_append]; omega
    unfold putUint16
    rw [if_pos ⟨by omega, hcap⟩, if_pos (by omega)]
    show Except.ok _ = _
    have hn : [(cAdd + 65535) % 65536 / 256 % 256, (cAdd + 65535) % 65536 % 256] = new := rfl
    rw [hn, harr]
    have hlen1 : d.len = (pre1 ++ e.encode ++ tl).length := by
      simp only [Slice.len, hb, List.length_append, hp1]
    have e1 : pre1 ++ (e.encode ++ tl ++ d.spare) = (pre1 ++ e.encode ++ tl) ++ d.spare := by
      simp
    rw [e1, hlen1, List.take_left, List.drop_left]
  have hsp : spliceOut grow ⟨pre1 ++ e.encode ++ tl, d.spare⟩ pre.length
      (pre.length + e.encode.length)
      = .ok ⟨pre1 ++ tl, List.drop (pre.length + tl.length)
          (pre1 ++ e.encode ++ tl ++ d.spare)⟩ := by
    unfold spliceOut Slice.sliceFrom
    have c1 : pre.length ≤ (⟨pre1 ++ e.encode ++ tl, d.spare⟩ : Slice).cap := by
      simp only [Slice.cap, List.length_append, hp1]; omega
    have c2 : pre.length + e.encode.length ≤ (⟨pre1 ++ e.encode ++ tl, d.spare⟩ : Slice).len := by
      simp only [Slice.len, List.length_append, hp1]; omega
    rw [if_pos c1, if_pos c2]
    have hd : List.drop (pre.length + e.encode.length) (pre1 ++ e.encode ++ tl) = tl := by
      have := List.drop_left (pre1 ++ e.encode) tl
      simp only [List.length_append, hp1] at this
      exact this
    simp only [hd]
    have c3 : pre.length + tl.length ≤ (⟨pre1 ++ e.encode ++ tl, d.spare⟩ : Slice).cap := by
      simp only [Slice.cap, List.length_append, hp1]; omega
    rw [if_pos c3]
    have ht : List.take pre.length (Slice.arr ⟨pre1 ++ e.encode ++ tl, d.spare⟩) = pre1 := by
      have := List.take_left pre1 (e.encode ++ tl ++ d.spare)
      simp only [hp1] at this
      simpa [Slice.arr] using this
    rw [ht]
    rfl
  refine ⟨List.drop (pre.length + tl.length) (pre1 ++ e.encode ++ tl ++ d.spare), ?_, ?_⟩
  · simp only [List.length_drop, List.length_append, hp1]; omega
  · simp only [aoAddStep, h1, beUint32_u32be, m1, h2, beUint16_u16be, m2, h3', if_true,
      m5, m6, hput, m7, hsp, m8]

theorem aoAddLoop_encoded (grow : GrowCap) (u : List Nat) (cRm cAdd : Nat) (hRm : cRm ≤ 32764) :
    ∀ (es : List AoEntry) (pre spare : List Nat) (seen : Bool) (acc : List Nat),
      6 + cRm * 2 ≤ pre.length →
      (∀ e ∈ es, e.id < 65536 ∧ e.name.length < 65536) →
      (pre ++ encodeEntries es).length < 4294967296 →
      ∃ spare1,
        spare1.length + (encodeEntries (keptEntries u seen es)).length
          = spare.length + (encodeEntries es).length ∧
        (anySpliced u seen es = false → spare1 = spare) ∧
        aoAddLoop grow u cRm cAdd es.length ⟨⟨pre ++ encodeEntries es, spare⟩, pre.length, seen, acc⟩
          = .ok ⟨⟨(if anySpliced u seen es
                    then overwrite pre (4 + cRm * 2) (u16be ((cAdd + 65535) % 65536))
                    else pre) ++ encodeEntries (keptEntries u seen es), spare1⟩,
                pre.length + (encodeEntries (keptEntries u seen es)).length,
                seenAfter u seen es, acc ++ genericIds u es⟩ := by
  intro es
  induction es with
  | nil =>
    intro pre spare seen acc _ _ _
    refine ⟨spare, rfl, fun _ => rfl, ?_⟩
    simp [aoAddLoop, encodeEntries, keptEntries, anySpliced, seenAfter, genericIds]
  | cons e es ih =>
    intro pre spare seen acc hpre hes hlen
    have he := hes e (List.mem_cons_self _ _)
    have hes' : ∀ x ∈ es, x.id < 65536 ∧ x.name.length < 65536 :=
      fun x hx => hes x (List.mem_cons_of_mem _ hx)
    have hlen' : (pre ++ e.encode ++ encodeEntries es).length < 4294967296 := by
      simpa [encodeEntries, List.append_assoc] using hlen
    have hbytes : (⟨pre ++ encodeEntries (e :: es), spare⟩ : Slice).bytes
        = pre ++ e.encode ++ encodeEntries es := by
      simp [encodeEntries, List.append_assoc]
    by_cases hn : e.name = u
    · cases seen with
      | false =>
        have hstep := aoAddStep_first grow u cRm cAdd ⟨pre ++ encodeEntries (e :: es), spare⟩ pre
          (encodeEntries es) e acc hbytes (by rw [hbytes]; exact hlen') he.2 hn
        obtain ⟨spare1, hs1, hs2, hloop⟩ := ih (pre ++ e.encode) spare true acc
          (by simp only [List.length_append]; omega) hes' hlen'
        refine ⟨spare1, ?_, ?_, ?_⟩
        · simp only [keptEntries, hn, if_true, encodeEntries, List.length_append,
            Bool.false_eq_true, if_false] at hs1 ⊢
          omega
        · intro h
          apply hs2
          simpa [anySpliced, hn] using h
        · simp only [List.length_cons, aoAddLoop, hstep]
          have e1 : pre ++ encodeEntries (e :: es) = pre ++ e.encode ++ encodeEntries es := hbytes
          have e2 : pre.length + e.encode.length = (pre ++ e.encode).length := by simp
          rw [e1, e2, hloop]
          have e3 : anySpliced u false (e :: es) = anySpliced u true es := by
            simp [anySpliced, hn]
          have e4 : keptEntries u false (e :: es) = e :: keptEntries u true es := by
            simp [keptEntries, hn]
          have e5 : seenAfter u false (e :: es) = seenAfter u true es := by
            simp [seenAfter, hn]
          have e6 : genericIds u (e :: es) = genericIds u es := by
            simp [genericIds, hn]
          rw [e3, e4, e5, e6]
          have e7 : overwrite (pre ++ e.encode) (4 + cRm * 2) (u16be ((cAdd + 65535) % 65536))
              = overwrite pre (4 + cRm * 2) (u16be ((cAdd + 65535) % 65536)) ++ e.encode :=
            overwrite_append _ _ _ _ (by simp only [u16be_length]; omega)
          rw [e7]
          congr 1
          split <;> simp [encodeEntries, List.append_assoc, Nat.add_assoc]
      | true =>
        obtain ⟨sp0, hsp0, hstep⟩ := aoAddStep_repeated grow u cRm cAdd
          ⟨pre ++ encodeEntries (e :: es), spare⟩ pre
          (encodeEntries es) e acc hbytes (by rw [hbytes]; exact hlen') he.2 hn hRm hpre
        have hp1 : (overwrite pre (4 + cRm * 2) (u16be ((cAdd + 65535) % 65536))).length
            = pre.length := overwrite_length _ _ _ (by simp only [u16be_length]; omega)
        obtain ⟨spare1, hs1, _, hloop⟩ := ih
          (overwrite pre (4 + cRm * 2) (u16be ((cAdd + 65535) % 65536))) sp0 true acc
          (by omega)
          hes' (by simp only [List.length_append, hp1] at hlen' ⊢; omega)
        refine ⟨spare1, ?_, ?_, ?_⟩
        · simp only [keptEntries, hn, if_true, encodeEntries, List.length_append] at hs1 ⊢
          simp only [] at hsp0
          omega
        · intro h
          simp [anySpliced, hn] at h
        · simp only [List.length_cons, aoAddLoop, hstep]
          rw [hp1] at hloop
          rw [hloop]
          have e3 : anySpliced u true (e :: es) = true := by simp [anySpliced, hn]
          have e4 : keptEntries u true (e :: es) = keptEntries u true es := by
            simp [keptEntries, hn]
          have e5 : seenAfter u true (e :: es) = seenAfter u true es := by
            simp [seenAfter]
          have e6 : genericIds u (e :: es) = genericIds u es := by
            simp [genericIds, hn]
          rw [e3, e4, e5, e6,
            overwrite_overwrite _ _ _ (by simp only [u16be_length]; omega)]
          simp
    · have hstep := aoAddStep_generic grow u cRm cAdd ⟨pre ++ encodeEntries (e :: es), spare⟩ pre
        (encodeEntries es) e seen acc hbytes (by rw [hbytes]; exact hlen') he.1 he.2 hn
      obtain ⟨spare1, hs1, hs2, hloop⟩ := ih (pre ++ e.encode) spare seen (acc ++ [e.id])
        (by simp only [List.length_append]; omega) hes' hlen'
      refine ⟨spare1, ?_, ?_, ?_⟩
      · simp only [keptEntries, hn, if_false, encodeEntries, List.length_append] at hs1 ⊢
        omega
      · intro h
        apply hs2
        simpa [anySpliced, hn] using h
      · simp only [List.length_cons, aoAddLoop, hstep]
        have e1 : pre ++ encodeEntries (e :: es) = pre ++ e.encode ++ encodeEntries es := hbytes
        have e2 : pre.length + e.encode.length = (pre ++ e.encode).length := by simp
        rw [e1, e2, hloop]
        have e3 : anySpliced u seen (e :: es) = anySpliced u seen es := by
          simp [anySpliced, hn]
        have e4 : keptEntries u seen (e :: es) = e :: keptEntries u seen es := by
          simp [keptEntries, hn]
        have e5 : seenAfter u seen (e :: es) = seenAfter u seen es := by
          simp [seenAfter, hn]
        have e6 : genericIds u (e :: es) = e.id :: genericIds u es := by
          simp [genericIds, hn]
        rw [e3, e4, e5, e6]
        have e7 : overwrite (pre ++ e.encode) (4 + cRm * 2) (u16be ((cAdd + 65535) % 65536))
            = overwrite pre (4 + cRm * 2) (u16be ((cAdd + 65535) % 65536)) ++ e.encode :=
          overwrite_append _ _ _ _ (by simp only [u16be_length]; omega)
        rw [e7]
        congr 1
        split <;> simp [encodeEntries, List.append_assoc, Nat.add_assoc]

theorem encodeIds_append (a b : List Nat) : encodeIds (a ++ b) = encodeIds a ++ encodeIds b := by
  induction a with
  | nil => rfl
  | cons x xs ih => simp [encodeIds, ih]

theorem encodeIds_length (a : List Nat) : (encodeIds a).length = 2 * a.length := by
  induction a with
  | nil => rfl
  | cons x xs ih => simp [encodeIds, ih, u16be_length]; omega

theorem aoRmLoop_encoded (d : Slice) (hd : List Nat) (removed post : List Nat)
    (hhd : hd.length = 4)
    (harr : d.arr = hd ++ encodeIds removed ++ post)
    (hn : removed.length ≤ 65530) (hr : ∀ r ∈ removed, r < 65536) :
    ∀ (fuel : Nat) (done rest : List Nat), removed = done ++ rest →
      done.length ≤ (removed.length + 1) / 2 →
      (removed.length + 1) / 2 - done.length < fuel →
      aoRmLoop d removed.length fuel (2 * done.length) done
        = .ok (removed.take ((removed.length + 1) / 2)) := by
  intro fuel
  induction fuel with
  | zero => intro done rest _ _ h; omega
  | succ fuel ih =>
    intro done rest hsplit hle hfuel
    unfold aoRmLoop
    by_cases hlt : 2 * done.length < removed.length
    · rw [if_pos hlt]
      have hlen : removed.length = done.length + rest.length := by
        rw [hsplit, List.length_append]
      cases rest with
      | nil => simp at hlen; omega
      | cons r rest1 =>
        have hrr : r < 65536 := hr r (by rw [hsplit]; simp)
        have hs : d.slice ((4 + 2 * done.length) % 65536) ((6 + 2 * done.length) % 65536)
            = .ok (u16be r) := by
          rw [Nat.mod_eq_of_lt (by omega), Nat.mod_eq_of_lt (by omega)]
          exact slice_mid d (hd ++ encodeIds done) _ (encodeIds rest1 ++ post)
            (by rw [harr, hsplit]; simp [encodeIds_append, encodeIds])
            _ _ (by simp [encodeIds_length, hhd]) (by simp [encodeIds_length, hhd, u16be_length]; omega)
        rw [hs]
        simp only [beUint16_u16be, Nat.mod_eq_of_lt hrr]
        have hi : (2 * done.length + 2) % 65536 = 2 * (done ++ [r]).length := by
          simp only [List.length_append, List.length_singleton]; omega
        rw [hi]
        apply ih (done ++ [r]) rest1
        · rw [hsplit]; simp
        · simp only [List.length_append, List.length_singleton]; omega
        · simp only [List.length_append, List.length_singleton]; omega
    · rw [if_neg hlt]
      have : (removed.length + 1) / 2 = done.length := by omega
      rw [this, hsplit, List.take_left]

theorem anySpliced_ne_nil (u : List Nat) (seen : Bool) (es : List AoEntry)
    (h : anySpliced u seen es = true) : 1 ≤ es.length := by
  cases es with
  | nil => simp [anySpliced] at h
  | cons e es => simp

theorem header_overwrite (a : List Nat) (x y : Nat) :
    overwrite (a ++ u16be x) a.length (u16be y) = a ++ u16be y := by
  simp [overwrite, u16be]

theorem processAoRmAdd_encoded (grow : GrowCap) (p : Peer) (P : AoPayload) (spare : List Nat)
    (hfit : P.Fits) (hRm : P.removed.length ≤ 32764) :
    ∃ spare1,
      spare1.length + (P.rewritten p.username p.initAoReceived).length
        = spare.length + P.encode.length ∧
      processAoRmAdd grow p ⟨P.encode, spare⟩ =
        .ok ({ p with
                initAoReceived := seenAfter p.username p.initAoReceived P.added,
                aoIDs := markRemoved (markAdded p.aoIDs (genericIds p.username P.added))
                  (P.removed.take ((P.removed.length + 1) / 2)) },
             ⟨P.rewritten p.username p.initAoReceived, spare1⟩) := by
  obtain ⟨_, hr, hadd, hes, hlen⟩ := hfit
  set n := P.removed.length with hn
  set pre := [0, 0x31] ++ u16be n ++ encodeIds P.removed ++ u16be P.added.length with hpre
  have henc : P.encode = pre ++ encodeEntries P.added := rfl
  have hprelen : pre.length = 6 + n * 2 := by
    simp [hpre, u16be_length, encodeIds_length]; omega
  have s1 : (⟨P.encode, spare⟩ : Slice).slice 2 4 = .ok (u16be n) :=
    slice_mid _ [0, 0x31] _ (encodeIds P.removed ++ u16be P.added.length
      ++ encodeEntries P.added ++ spare)
      (by simp [Slice.arr, AoPayload.encode]) _ _ rfl rfl
  have s2 := aoRmLoop_encoded ⟨P.encode, spare⟩ ([0, 0x31] ++ u16be n) P.removed
    (u16be P.added.length ++ encodeEntries P.added ++ spare) (by simp [u16be_length])
    (by simp [Slice.arr, AoPayload.encode]) (by omega) hr 32769 [] P.removed rfl (by simp)
    (by simp only [List.length_nil]; omega)
  have s3 : (⟨P.encode, spare⟩ : Slice).slice ((4 + n * 2) % 65536) ((6 + n * 2) % 65536)
      = .ok (u16be P.added.length) := by
    rw [Nat.mod_eq_of_lt (by omega), Nat.mod_eq_of_lt (by omega)]
    exact slice_mid _ ([0, 0x31] ++ u16be n ++ encodeIds P.removed) _
      (encodeEntries P.added ++ spare)
      (by simp [Slice.arr, AoPayload.encode]) _ _
      (by simp [u16be_length, encodeIds_length]; omega)
      (by simp [u16be_length, encodeIds_length]; omega)
  obtain ⟨spare1, hs1, _, hloop⟩ := aoAddLoop_encoded grow p.username n P.added.length hRm P.added
    pre spare p.initAoReceived [] (by omega) hes (by rw [← henc]; exact hlen)
  have hout : (if anySpliced p.username p.initAoReceived P.added
        then overwrite pre (4 + n * 2) (u16be ((P.added.length + 65535) % 65536)) else pre)
        ++ encodeEntries (keptEntries p.username p.initAoReceived P.added)
      = P.rewritten p.username p.initAoReceived := by
    unfold AoPayload.rewritten
    split
    · rename_i h
      have h1 := anySpliced_ne_nil _ _ _ h
      have h2 : (P.added.length + 65535) % 65536 = P.added.length - 1 := by omega
      have h3 : 4 + n * 2 = ([0, 0x31] ++ u16be n ++ encodeIds P.removed).length := by
        simp [u16be_length, encodeIds_length]; omega
      rw [h2, hpre, h3, header_overwrite]
    · rfl
  refine ⟨spare1, ?_, ?_⟩
  · rw [← hout, henc]
    simp only [List.length_append] at hs1 ⊢
    have : (if anySpliced p.username p.initAoReceived P.added
        then overwrite pre (4 + n * 2) (u16be ((P.added.length + 65535) % 65536))
        else pre).length = pre.length := by
      split
      · exact overwrite_length _ _ _ (by simp only [u16be_length]; omega)
      · rfl
    omega
  · have hst : (⟨⟨P.encode, spare⟩, 6 + n * 2, p.initAoReceived, []⟩ : AddState)
        = ⟨⟨pre ++ encodeEntries P.added, spare⟩, pre.length, p.initAoReceived, []⟩ := by
      rw [henc, hprelen]
    simp only [List.length_nil, Nat.mul_zero] at s2
    simp only [processAoRmAdd, s1, beUint16_u16be, Nat.mod_eq_of_lt (show n < 65536 by omega),
      s2, s3, Nat.mod_eq_of_lt hadd, hst, hloop, hout, List.nil_append]

theorem encodeEntries_append (a b : List AoEntry) :
    encodeEntries (a ++ b) = encodeEntries a ++ encodeEntries b := by
  induction a with
  | nil => rfl
  | cons x xs ih => simp [encodeEntries, ih]

theorem keptEntries_of_no_self (u : List Nat) (seen : Bool) (es : List AoEntry)
    (h : ∀ e ∈ es, e.name ≠ u) : keptEntries u seen es = es := by
  induction es with
  | nil => rfl
  | cons e es ih =>
    have he := h e (List.mem_cons_self _ _)
    simp [keptEntries, he, ih (fun x hx => h x (List.mem_cons_of_mem _ hx))]

theorem anySpliced_of_no_self (u : List Nat) (seen : Bool) (es : List AoEntry)
    (h : ∀ e ∈ es, e.name ≠ u) : anySpliced u seen es = false := by
  induction es with
  | nil => rfl
  | cons e es ih =>
    have he := h e (List.mem_cons_self _ _)
    simp [anySpliced, he, ih (fun x hx => h x (List.mem_cons_of_mem _ hx))]

theorem keptEntries_single (u : List Nat) (seen : Bool) (before after : List AoEntry)
    (self : AoEntry) (hs : self.name = u) (hb : ∀ e ∈ before, e.name ≠ u)
    (ha : ∀ e ∈ after, e.name ≠ u) :
    keptEntries u seen (before ++ self :: after)
      = if seen then before ++ after else before ++ self :: after := by
  induction before with
  | nil =>
    cases seen <;> simp [keptEntries, hs, keptEntries_of_no_self u true after ha]
  | cons e es ih =>
    have he := hb e (List.mem_cons_self _ _)
    have := ih (fun x hx => hb x (List.mem_cons_of_mem _ hx))
    cases seen <;> simp_all [keptEntries]

theorem anySpliced_single (u : List Nat) (seen : Bool) (before after : List AoEntry)
    (self : AoEntry) (hs : self.name = u) (hb : ∀ e ∈ before, e.name ≠ u)
    (ha : ∀ e ∈ after, e.name ≠ u) :
    anySpliced u seen (before ++ self :: after) = seen := by
  induction before with
  | nil =>
    cases seen <;> simp [anySpliced, hs, anySpliced_of_no_self u true after ha]
  | cons e es ih =>
    have he := hb e (List.mem_cons_self _ _)
    have := ih (fun x hx => hb x (List.mem_cons_of_mem _ hx))
    cases seen <;> simp_all [anySpliced]

/-- With `32765` removal entries the `uint16` sum `6+countRm*2` wraps to `0`, and the
slice expression `data[65534:0]` that reads the addition count panics. -/
theorem processAoRmAdd_header_offset_wraps (grow : GrowCap) (p : Peer) (P : AoPayload) (spare : List Nat)
    (hfit : P.Fits) (hRm : P.removed.length = 32765) :
    processAoRmAdd grow p ⟨P.encode, spare⟩ = .error .panic := by
  obtain ⟨_, hr, hadd, hes, hlen⟩ := hfit
  have s1 : (⟨P.encode, spare⟩ : Slice).slice 2 4 = .ok (u16be P.removed.length) :=
    slice_mid _ [0, 0x31] _ (encodeIds P.removed ++ u16be P.added.length
      ++ encodeEntries P.added ++ spare)
      (by simp [Slice.arr, AoPayload.encode]) _ _ rfl rfl
  have s2 := aoRmLoop_encoded ⟨P.encode, spare⟩ ([0, 0x31] ++ u16be P.removed.length) P.removed
    (u16be P.added.length ++ encodeEntries P.added ++ spare) (by simp [u16be_length])
    (by simp [Slice.arr, AoPayload.encode]) (by omega) hr 32769 [] P.removed rfl (by simp)
    (by simp only [List.length_nil]; omega)
  simp only [List.length_nil, Nat.mul_zero] at s2
  have s3 : (⟨P.encode, spare⟩ : Slice).slice ((4 + 32765 * 2) % 65536) ((6 + 32765 * 2) % 65536)
      = .error .panic := by
    unfold Slice.slice
    rw [if_neg (by omega)]
  rw [hRm] at s1 s2
  simp only [processAoRmAdd, s1, beUint16_u16be, s2, Nat.reduceMod, s3]

theorem payload_encode_length (P : AoPayload) :
    P.encode.length = 6 + 2 * P.removed.length + (encodeEntries P.added).length := by
  simp only [AoPayload.encode, List.length_append, encodeIds_length, u16be_length,
    List.length_cons, List.length_nil]
  omega

theorem longRemovalPayload_fits : longRemovalPayload.Fits := by
  have h1 : longRemovalPayload.removed.length = 32765 := List.length_replicate _ _
  refine ⟨by rw [h1]; omega, ?_, by decide, ?_, ?_⟩
  · intro r hr
    have hr1 : r ∈ List.replicate 32765 0 := hr
    rw [List.eq_of_mem_replicate hr1]
    omega
  · intro e he
    have he1 : e ∈ [selfEntry 1] := he
    rw [List.mem_singleton] at he1
    subst he1
    decide
  · rw [payload_encode_length]
    have h2 : (encodeEntries longRemovalPayload.added).length = 12 := by decide
    rw [h1, h2]
    omega


/-- With a removal count below `65535` the removal loop leaves within the `32769`
tests the embedding gives it: more fuel changes nothing. -/
theorem aoRmLoop_fuel (d : Slice) (c : Nat) (hc : c ≤ 65534) :
    ∀ (f1 f2 i : Nat) (acc : List Nat), i % 2 = 0 → i < 65536 →
      (c + 1 - i) / 2 < f1 → (c + 1 - i) / 2 < f2 →
      aoRmLoop d c f1 i acc = aoRmLoop d c f2 i acc := by
  intro f1
  induction f1 with
  | zero => intro f2 i acc _ _ h; omega
  | succ f1 ih =>
    intro f2 i acc hev hi h1 h2
    cases f2 with
    | zero => omega
    | succ f2 =>
      unfold aoRmLoop
      by_cases hlt : i < c
      · simp only [hlt, if_true]
        generalize d.slice ((4 + i) % 65536) ((6 + i) % 65536) = r
        cases r with
        | error e => rfl
        | ok b =>
          simp only []
          generalize beUint16 b = r2
          cases r2 with
          | error e => rfl
          | ok v =>
            simp only []
            have hi2 : (i + 2) % 65536 = i + 2 := Nat.mod_eq_of_lt (by omega)
            rw [hi2]
            exact ih f2 (i + 2) _ (by omega) (by omega) (by omega) (by omega)
      · simp only [hlt, if_false]

/-- With the removal count `65535` the loop variable, which stays even, is never
found to be `65535` or more: the loop does not end for any number of tests. -/
theorem aoRmLoop_never_returns (d : Slice) :
    ∀ (fuel i : Nat) (acc out : List Nat), i % 2 = 0 → i < 65536 →
      aoRmLoop d 65535 fuel i acc ≠ .ok out := by
  intro fuel
  induction fuel with
  | zero => intro i acc out _ _; simp [aoRmLoop]
  | succ fuel ih =>
    intro i acc out hev hi
    unfold aoRmLoop
    have hlt : i < 65535 := by omega
    simp only [hlt, if_true]
    generalize d.slice ((4 + i) % 65536) ((6 + i) % 65536) = r
    cases r with
    | error e => simp
    | ok b =>
      simp only []
      generalize beUint16 b = r2
      cases r2 with
      | error e => simp
      | ok v =>
        simp only []
        exact ih ((i + 2) % 65536) _ out (by omega) (Nat.mod_lt _ (by omega))


/-- The header of an encoded packet reads back the two counts. -/
theorem readCounts_encoded (n c : Nat) (rm tl : List Nat) (hn : n < 65536) (hc : c < 65536)
    (hrm : rm.length = n * 2) :
    readCounts ([0, 0x31] ++ u16be n ++ rm ++ u16be c ++ tl) = some (n, c) := by
  have e1 : n / 256 % 256 * 256 + n % 256 = n := by omega
  have e2 : c / 256 % 256 * 256 + c % 256 = c := by omega
  have hd : List.drop (n * 2) (rm ++ (c / 256 % 256 :: c % 256 :: tl))
      = c / 256 % 256 :: c % 256 :: tl := by
    rw [← hrm]; exact List.drop_left _ _
  simp only [readCounts, u16be, List.cons_append, List.nil_append, List.append_assoc,
    List.drop_succ_cons, List.drop_zero, e1, hd, e2]

/-- The bytes behind the addition count of an encoded packet. -/
theorem entryBytes_encoded (n c : Nat) (rm tl : List Nat) (hn : n < 65536) (hc : c < 65536)
    (hrm : rm.length = n * 2) :
    entryBytes ([0, 0x31] ++ u16be n ++ rm ++ u16be c ++ tl) = tl := by
  rw [entryBytes, readCounts_encoded n c rm tl hn hc hrm]
  have : 6 + n * 2 = ([0, 0x31] ++ u16be n ++ rm ++ u16be c).length := by
    simp [u16be_length, hrm]; omega
  simp only [this]
  exact List.drop_left _ _

/-- The encoded entries are counted back one by one. -/
theorem entriesPresent_encoded (es : List AoEntry) :
    ∀ fuel, es.length ≤ fuel → (∀ e ∈ es, e.initDataLen < 4294967296) →
      entriesPresent fuel (encodeEntries es) = some es.length := by
  induction es with
  | nil => intro fuel _ _; cases fuel <;> simp [entriesPresent, encodeEntries]
  | cons e es ih =>
    intro fuel hf hb
    cases fuel with
    | zero => simp at hf
    | succ fuel =>
      have he := hb e (List.mem_cons_self _ _)
      have e1 : ((e.initDataLen / 16777216 % 256 * 256 + e.initDataLen / 65536 % 256) * 256
          + e.initDataLen / 256 % 256) * 256 + e.initDataLen % 256 = e.initDataLen := by omega
      have hl : ([e.version] ++ u16be e.name.length ++ e.name ++ e.rest).length
          = e.initDataLen := by
        simp [u16be_length, AoEntry.initDataLen]; omega
      have hd : List.drop e.initDataLen
          (([e.version] ++ u16be e.name.length ++ e.name ++ e.rest) ++ encodeEntries es)
          = encodeEntries es := by
        rw [← hl]; exact List.drop_left _ _
      have hlen : e.initDataLen ≤
          (([e.version] ++ u16be e.name.length ++ e.name ++ e.rest) ++ encodeEntries es).length := by
        rw [List.length_append, hl]; omega
      have henc : encodeEntries (e :: es) = e.id / 256 % 256 :: e.id % 256 :: e.kind ::
          e.initDataLen / 16777216 % 256 :: e.initDataLen / 65536 % 256 ::
          e.initDataLen / 256 % 256 :: e.initDataLen % 256 ::
          (([e.version] ++ u16be e.name.length ++ e.name ++ e.rest) ++ encodeEntries es) := by
        simp [encodeEntries, AoEntry.encode, u16be, u32be]
      rw [henc]
      simp only [entriesPresent, e1, hlen, if_true, hd]
      rw [ih fuel (by simpa using hf) (fun x hx => hb x (List.mem_cons_of_mem _ hx))]
      simp

theorem keptEntries_length_le (u : List Nat) (seen : Bool) (es : List AoEntry) :
    (keptEntries u seen es).length ≤ es.length := by
  induction es generalizing seen with
  | nil => simp [keptEntries]
  | cons e es ih =>
    simp only [keptEntries]
    split
    · split
      · exact Nat.le_succ_of_le (ih true)
      · simpa using ih true
    · simpa using ih seen

theorem keptEntries_subset (u : List Nat) (seen : Bool) (es : List AoEntry) :
    ∀ e ∈ keptEntries u seen es, e ∈ es := by
  induction es generalizing seen with
  | nil => simp [keptEntries]
  | cons e es ih =>
    intro x hx
    simp only [keptEntries] at hx
    split at hx
    · split at hx
      · exact List.mem_cons_of_mem _ (ih true x hx)
      · rcases List.mem_cons.mp hx with h | h
        · rw [h]; exact List.mem_cons_self _ _
        · exact List.mem_cons_of_mem _ (ih true x h)
    · rcases List.mem_cons.mp hx with h | h
      · rw [h]; exact List.mem_cons_self _ _
      · exact List.mem_cons_of_mem _ (ih seen x h)

theorem encodeEntries_length_mem (es : List AoEntry) :
    ∀ e ∈ es, 7 + e.initDataLen ≤ (encodeEntries es).length := by
  induction es with
  | nil => simp
  | cons x xs ih =>
    intro e he
    simp only [encodeEntries, List.length_append, entry_encode_length]
    rcases List.mem_cons.mp he with h | h
    · subst h; omega
    · have := ih e h; omega

/-- What a reader of the layout finds in the packet `processAoRmAdd` returns for an
encoded payload with at most `32764` removals: the removal count of the input, an
addition count lowered by one when at least one entry was cut out, and as many
entries present as were kept. -/
theorem processAoRmAdd_reparse (grow : GrowCap) (p : Peer) (P : AoPayload) (spare : List Nat)
    (hfit : P.Fits) (hRm : P.removed.length ≤ 32764) :
    ∃ q out, processAoRmAdd grow p ⟨P.encode, spare⟩ = .ok (q, out) ∧
      readCounts out.bytes = some (P.removed.length,
        if anySpliced p.username p.initAoReceived P.added then P.added.length - 1
        else P.added.length) ∧
      entriesPresent P.added.length (entryBytes out.bytes)
        = some (keptEntries p.username p.initAoReceived P.added).length := by
  obtain ⟨spare1, _, hrun⟩ := processAoRmAdd_encoded grow p P spare hfit hRm
  obtain ⟨hn, _, hadd, _, hlen⟩ := hfit
  refine ⟨_, _, hrun, ?_, ?_⟩
  · exact readCounts_encoded _ _ _ _ hn (by split <;> omega)
      (by rw [encodeIds_length]; omega)
  · show entriesPresent _ (entryBytes (P.rewritten p.username p.initAoReceived)) = _
    unfold AoPayload.rewritten
    rw [entryBytes_encoded _ _ _ _ hn (by split <;> omega) (by rw [encodeIds_length]; omega)]
    apply entriesPresent_encoded _ _ (keptEntries_length_le _ _ _)
    intro e he
    have h1 := encodeEntries_length_mem P.added e (keptEntries_subset _ _ _ e he)
    rw [payload_encode_length] at hlen
    omega


/-! ## Lemmas on `command.go` -/

theorem nat_or_eq_zero (v w : Nat) (h : v ||| w = 0) : v = 0 ∧ w = 0 := by
  constructor
  · apply Nat.eq_of_testBit_eq
    intro i
    have := congrArg (fun n => n.testBit i) h
    simp only [Nat.testBit_or, Nat.zero_testBit, Bool.or_eq_false_iff] at this
    simp [this.1]
  · apply Nat.eq_of_testBit_eq
    intro i
    have := congrArg (fun n => n.testBit i) h
    simp only [Nat.testBit_or, Nat.zero_testBit, Bool.or_eq_false_iff] at this
    simp [this.2]

theorem xorFold_lt (x : List Nat) : ∀ (y : List Nat) (v : Nat), v < 256 → xorFold v x y < 256 := by
  induction x with
  | nil => intro y v hv; simpa [xorFold] using hv
  | cons a x ih =>
    intro y v hv
    cases y with
    | nil => simpa [xorFold] using hv
    | cons b y =>
      simp only [xorFold]
      exact ih y _ (Nat.mod_lt _ (by omega))

theorem xorFold_eq_zero (x : List Nat) :
    ∀ (y : List Nat) (v : Nat), x.length = y.length → (∀ a ∈ x, a < 256) →
      (∀ b ∈ y, b < 256) → v < 256 → (xorFold v x y = 0 ↔ v = 0 ∧ x = y) := by
  induction x with
  | nil =>
    intro y v hl _ _ _
    cases y with
    | nil => simp [xorFold]
    | cons b y => simp at hl
  | cons a x ih =>
    intro y v hl hx hy hv
    cases y with
    | nil => simp at hl
    | cons b y =>
      have ha : a < 2 ^ 8 := hx a (List.mem_cons_self _ _)
      have hb : b < 2 ^ 8 := hy b (List.mem_cons_self _ _)
      have hxor : a ^^^ b < 2 ^ 8 := Nat.xor_lt_two_pow ha hb
      have hor : v ||| (a ^^^ b) < 2 ^ 8 := Nat.or_lt_two_pow (by omega) hxor
      have hmod : (v ||| (a ^^^ b)) % 256 = v ||| (a ^^^ b) := Nat.mod_eq_of_lt (by omega)
      simp only [xorFold, hmod]
      rw [ih y _ (by simpa using hl) (fun c hc => hx c (List.mem_cons_of_mem _ hc))
        (fun c hc => hy c (List.mem_cons_of_mem _ hc)) (by omega)]
      constructor
      · rintro ⟨h0, hxy⟩
        obtain ⟨hv0, hab⟩ := nat_or_eq_zero _ _ h0
        exact ⟨hv0, by rw [Nat.xor_eq_zero.mp hab, hxy]⟩
      · rintro ⟨hv0, hxy⟩
        injection hxy with hab hxy
        subst hv0 hab hxy
        simp

/-- `subtle.ConstantTimeCompare` returns `1` exactly on byte-for-byte equal slices. -/
theorem constantTimeCompare_eq_one_iff (x y : List Nat) (hx : ∀ a ∈ x, a < 256)
    (hy : ∀ b ∈ y, b < 256) : constantTimeCompare x y = 1 ↔ x = y := by
  unfold constantTimeCompare
  by_cases hl : x.length = y.length
  · rw [if_neg (by simpa using hl)]
    have hlt := xorFold_lt x y 0 (by omega)
    have hz := xorFold_eq_zero x y 0 hl hx hy (by omega)
    have hb : constantTimeByteEq (xorFold 0 x y) 0 = 1 ↔ xorFold 0 x y = 0 := by
      unfold constantTimeByteEq
      rw [Nat.xor_zero]
      omega
    rw [hb, hz]
    simp
  · rw [if_pos hl]
    constructor
    · intro h; omega
    · intro h; subst h; exact absurd rfl hl


theorem slice_cmd (d : Slice) (c0 c1 : Nat) (rest : List Nat) (h : d.bytes = c0 :: c1 :: rest) :
    d.slice 0 2 = .ok [c0, c1] :=
  slice_mid d [] [c0, c1] (rest ++ d.spare) (by simp [Slice.arr, h]) _ _ rfl rfl

theorem slice_len16 (d : Slice) (c0 c1 : Nat) (n : Nat) (rest : List Nat)
    (h : d.bytes = [c0, c1] ++ u16be n ++ rest) : d.slice 2 4 = .ok (u16be n) :=
  slice_mid d [c0, c1] (u16be n) (rest ++ d.spare) (by simp [Slice.arr, h]) _ _ rfl rfl

/-- A client packet whose command is `00 52` is handled by `caseSrpBytesM`. -/
theorem processPktCommand_srpBytesM (env : Env) (w : World) (rest : List Nat)
    (hsrv : w.src.isSrv = false) (hdata : w.data.bytes = [0, 0x52] ++ rest) :
    processPktCommand env w = caseSrpBytesM env w := by
  have h := slice_cmd w.data 0 0x52 rest hdata
  simp [processPktCommand, h, beUint16, hsrv]

/-- A client packet whose command is `00 51` is handled by `caseSrpBytesA`. -/
theorem processPktCommand_srpBytesA (env : Env) (w : World) (rest : List Nat)
    (hsrv : w.src.isSrv = false) (hdata : w.data.bytes = [0, 0x51] ++ rest) :
    processPktCommand env w = caseSrpBytesA env w := by
  have h := slice_cmd w.data 0 0x51 rest hdata
  simp [processPktCommand, h, beUint16, hsrv]

/-- A client packet whose command is `00 50` is handled by `caseFirstSrp`. -/
theorem processPktCommand_firstSrp (env : Env) (w : World) (rest : List Nat)
    (hsrv : w.src.isSrv = false) (hdata : w.data.bytes = [0, 0x50] ++ rest) :
    processPktCommand env w = caseFirstSrp env w := by
  have h := slice_cmd w.data 0 0x50 rest hdata
  simp [processPktCommand, h, beUint16, hsrv]

/-- The read of a length-prefixed field that starts at offset 4. -/
theorem field16_first (d : Slice) (c0 c1 : Nat) (f rest : List Nat)
    (h : d.bytes = [c0, c1] ++ u16be f.length ++ f ++ rest) (hlen : 4 + f.length ≤ 65535) :
    field16 d 4 (4 + f.length) = .ok f := by
  unfold field16
  rw [Nat.mod_eq_of_lt (by omega), Nat.mod_eq_of_lt (by omega)]
  exact slice_mid d ([c0, c1] ++ u16be f.length) f (rest ++ d.spare)
    (by simp [Slice.arr, h]) _ _ (by simp [u16be_length]) (by simp [u16be_length])

/-- With a field of 65532 bytes or more the `uint16` upper bound `4+len` wraps below
the lower bound `4` and the slice expression panics. -/
theorem field16_first_wraps (d : Slice) (n : Nat) (h1 : 65532 ≤ n) (h2 : n < 65536) :
    field16 d 4 (4 + n) = .error .panic := by
  unfold field16 Slice.slice
  rw [if_neg (by omega)]

theorem caseSrpBytesM_result (env : Env) (w : World) (M tl : List Nat)
    (hsudo : w.src.sudoMode = false)
    (hdata : w.data.bytes = srpBytesMPacket M ++ tl) (hlen : M.length ≤ 65531) :
    caseSrpBytesM env w =
      .ok (if constantTimeCompare M
              (env.calculateM w.src.username w.src.srp_s w.src.srp_A w.src.srp_B w.src.srp_K) = 1
           then { w with src := { w.src with sudoMode := true }, sent := w.sent ++ [[0, 4]] }
           else { w with sent := w.sent ++ [[0, 5]] }, true) := by
  have hd : w.data.bytes = [0, 0x52] ++ u16be M.length ++ M ++ tl := by
    rw [hdata]; simp [srpBytesMPacket]
  have h1 := slice_len16 w.data 0 0x52 M.length (M ++ tl) (by rw [hd]; simp)
  have h2 := field16_first w.data 0 0x52 M tl hd (by omega)
  simp only [caseSrpBytesM, hsudo, h1, beUint16_u16be, Nat.mod_eq_of_lt (show M.length < 65536 by omega), h2]
  by_cases hc : constantTimeCompare M
      (env.calculateM w.src.username w.src.srp_s w.src.srp_A w.src.srp_B w.src.srp_K) = 1
  · rw [if_pos hc, if_pos hc]; simp
  · rw [if_neg hc, if_neg hc]; simp

theorem caseSrpBytesM_wraps (env : Env) (w : World) (M tl : List Nat)
    (hsudo : w.src.sudoMode = false)
    (hdata : w.data.bytes = srpBytesMPacket M ++ tl) (h1 : 65532 ≤ M.length)
    (h2 : M.length < 65536) :
    caseSrpBytesM env w = .error .panic := by
  have hd : w.data.bytes = [0, 0x52] ++ u16be M.length ++ (M ++ tl) := by
    rw [hdata]; simp [srpBytesMPacket]
  have s1 := slice_len16 w.data 0 0x52 M.length (M ++ tl) hd
  have s2 := field16_first_wraps w.data M.length h1 h2
  simp only [caseSrpBytesM, hsudo, s1, beUint16_u16be, Nat.mod_eq_of_lt h2, s2]
  simp

/-- The read of a field between the offsets `lo` and `lo + f.length`, computed in
`uint16`, of a buffer that holds `f` there. -/
theorem field16_at (d : Slice) (a f rest : List Nat) (lo hi : Nat)
    (h : d.bytes = a ++ f ++ rest) (hlo : lo = a.length) (hhi : hi = a.length + f.length)
    (hlen : a.length + f.length ≤ 65535) :
    field16 d lo hi = .ok f := by
  subst hlo hhi
  unfold field16
  rw [Nat.mod_eq_of_lt (by omega), Nat.mod_eq_of_lt (by omega)]
  exact slice_mid d a f (rest ++ d.spare) (by simp [Slice.arr, h]) _ _ rfl rfl

theorem caseFirstSrp_result (env : Env) (w : World) (s v tl : List Nat)
    (hdata : w.data.bytes = firstSrpPacket s v ++ tl)
    (hlen : 6 + s.length + v.length ≤ 65535)
    (hopen : env.dbOpens = true) (hwrite : env.writeOk = true) :
    caseFirstSrp env w =
      .ok (if w.src.sudoMode then
             { w with src := { w.src with sudoMode := false },
                      auth := modAuthItem w.auth w.src.username (encodeVerifierAndSalt s v) }
           else w, true) := by
  cases hs : w.src.sudoMode
  · simp [caseFirstSrp, hs]
  · have h1 := slice_len16 w.data 0 0x50 s.length (s ++ u16be v.length ++ v ++ tl)
      (by rw [hdata]; simp [firstSrpPacket])
    have h2 := field16_at w.data ([0, 0x50] ++ u16be s.length) s (u16be v.length ++ v ++ tl)
      4 (4 + s.length) (by rw [hdata]; simp [firstSrpPacket]) (by simp [u16be_length])
      (by simp [u16be_length]) (by simp [u16be_length]; omega)
    have h3 := field16_at w.data ([0, 0x50] ++ u16be s.length ++ s) (u16be v.length) (v ++ tl)
      (4 + s.length) (6 + s.length) (by rw [hdata]; simp [firstSrpPacket])
      (by simp [u16be_length]; omega) (by simp [u16be_length]; omega)
      (by simp [u16be_length]; omega)
    have h4 := field16_at w.data ([0, 0x50] ++ u16be s.length ++ s ++ u16be v.length) v tl
      (6 + s.length) (6 + s.length + v.length) (by rw [hdata]; simp [firstSrpPacket])
      (by simp [u16be_length]; omega) (by simp [u16be_length]; omega)
      (by simp [u16be_length]; omega)
    simp only [caseFirstSrp, hs, if_true, h1, beUint16_u16be,
      Nat.mod_eq_of_lt (show s.length < 65536 by omega), h2, h3,
      Nat.mod_eq_of_lt (show v.length < 65536 by omega), h4, hopen, hwrite]
    simp

theorem caseFirstSrp_wraps (env : Env) (w : World) (s v tl : List Nat)
    (hsudo : w.src.sudoMode = true)
    (hdata : w.data.bytes = firstSrpPacket s v ++ tl) (h1 : 65532 ≤ s.length)
    (h2 : s.length < 65536) :
    caseFirstSrp env w = .error .panic := by
  have s1 := slice_len16 w.data 0 0x50 s.length (s ++ u16be v.length ++ v ++ tl)
    (by rw [hdata]; simp [firstSrpPacket])
  have s2 := field16_first_wraps w.data s.length h1 h2
  simp only [caseFirstSrp, hsudo, if_true, s1, beUint16_u16be, Nat.mod_eq_of_lt h2, s2]

theorem caseSrpBytesA_no_credential (env : Env) (w : World) (A tl : List Nat)
    (hsudo : w.src.sudoMode = false)
    (hdata : w.data.bytes = srpBytesAPacket A ++ tl) (hlen : A.length ≤ 65531)
    (hopen : env.dbOpens = true) (hread : env.readOk = true)
    (hrow : readAuthItem w.auth w.src.username = []) :
    caseSrpBytesA env w = .error .panic := by
  have hd : w.data.bytes = [0, 0x51] ++ u16be A.length ++ A ++ tl := by
    rw [hdata]; simp [srpBytesAPacket]
  have h1 := slice_len16 w.data 0 0x51 A.length (A ++ tl) (by rw [hd]; simp)
  have h2 := field16_first w.data 0 0x51 A tl hd (by omega)
  simp only [caseSrpBytesA, hsudo, h1, beUint16_u16be,
    Nat.mod_eq_of_lt (show A.length < 65536 by omega), h2, hopen, hread, hrow]
  simp [decodeVerifierAndSalt, splitByte]


/-! ## Lemmas on malformed buffers -/

theorem slice_error (d : Slice) (lo hi : Nat) (e : Fault) (h : d.slice lo hi = .error e) :
    e = .panic := by
  unfold Slice.slice at h
  split at h
  · cases h
  · injection h with h; exact h.symm

theorem beUint16_error (b : List Nat) (e : Fault) (h : beUint16 b = .error e) : e = .panic := by
  unfold beUint16 at h
  split at h
  · cases h
  · injection h with h; exact h.symm

/-- With a removal count below `65535` the removal loop ends within its fuel: it
returns or panics. -/
theorem aoRmLoop_no_hang (d : Slice) (c : Nat) (hc : c ≤ 65534) :
    ∀ (fuel i : Nat) (acc : List Nat), i % 2 = 0 → i < 65536 → (c + 1 - i) / 2 < fuel →
      aoRmLoop d c fuel i acc ≠ .error .hang := by
  intro fuel
  induction fuel with
  | zero => intro i acc _ _ h; omega
  | succ fuel ih =>
    intro i acc hev hi hf
    unfold aoRmLoop
    by_cases hlt : i < c
    · simp only [hlt, if_true]
      cases hs : d.slice ((4 + i) % 65536) ((6 + i) % 65536) with
      | error e =>
        simp only []
        rw [slice_error _ _ _ _ hs]
        simp
      | ok b =>
        simp only []
        cases hb : beUint16 b with
        | error e =>
          simp only []
          rw [beUint16_error _ _ hb]
          simp
        | ok v =>
          simp only []
          have hi2 : (i + 2) % 65536 = i + 2 := Nat.mod_eq_of_lt (by omega)
          rw [hi2]
          exact ih (i + 2) _ (by omega) (by omega) (by omega)
    · simp only [hlt, if_false]
      simp

/-- A buffer of capacity below four: `data[2:4]` panics. -/
theorem processAoRmAdd_panics_below_header (grow : GrowCap) (p : Peer) (data : Slice)
    (h : data.cap < 4) : processAoRmAdd grow p data = .error .panic := by
  have hs : data.slice 2 4 = .error .panic := by
    unfold Slice.slice
    rw [if_neg (by omega)]
  simp only [processAoRmAdd, hs]

/-- A buffer whose removal count, at most `32764`, points past its capacity: the
removal loop or the read of the addition count panics. -/
theorem processAoRmAdd_panics_on_removal_count (grow : GrowCap) (p : Peer) (data : Slice)
    (b : List Nat) (c : Nat) (hs : data.slice 2 4 = .ok b) (hb : beUint16 b = .ok c)
    (hc : c ≤ 32764) (hcap : data.cap < 6 + c * 2) :
    processAoRmAdd grow p data = .error .panic := by
  have hh : data.slice ((4 + c * 2) % 65536) ((6 + c * 2) % 65536) = .error .panic := by
    unfold Slice.slice
    rw [Nat.mod_eq_of_lt (show 4 + c * 2 < 65536 by omega),
      Nat.mod_eq_of_lt (show 6 + c * 2 < 65536 by omega), if_neg (by omega)]
  have hl := aoRmLoop_no_hang data c (by omega) 32769 0 [] rfl (by omega) (by omega)
  simp only [processAoRmAdd, hs, hb]
  cases hr : aoRmLoop data c 32769 0 [] with
  | error e =>
    cases e with
    | panic => rfl
    | hang => exact absurd hr hl
  | ok aoRm =>
    simp only [hh]


/-! ## Lemmas on `auth.go` -/

theorem b64Val_b64Char (n : Nat) (h : n < 64) : b64Val (b64Char n) = some n := by
  interval_cases n <;> rfl

theorem b64Char_not_special (n : Nat) :
    b64Char n ≠ 61 ∧ b64Char n ≠ 35 ∧ b64Char n ≠ 10 ∧ b64Char n ≠ 13 := by
  unfold b64Char
  split_ifs <;> omega

/-- A full quantum: four characters of which the last two are no padding. -/
theorem b64DecodeQuanta_full (a b c d : Nat) (rest : List Nat) (hc : c ≠ 61) (hd : d ≠ 61) :
    b64DecodeQuanta (a :: b :: c :: d :: rest) =
      match b64Val a, b64Val b, b64Val c, b64Val d with
      | some x, some y, some z, some w =>
        match b64DecodeQuanta rest with
        | some out =>
          some ((x * 4 + y / 16) % 256 :: (y % 16 * 16 + z / 4) % 256 ::
            (z % 4 * 64 + w) % 256 :: out)
        | none => none
      | _, _, _, _ => none := by
  rw [b64DecodeQuanta]
  all_goals first
    | rfl
    | (intro h; first | exact absurd h hc | exact absurd h hd)

theorem b64Encode_chars (x : List Nat) : ∀ c ∈ b64Encode x, c = 61 ∨ ∃ n, c = b64Char n := by
  induction x using b64Encode.induct with
  | case1 a b c rest ih =>
    intro ch h
    simp only [b64Encode, List.mem_cons] at h
    rcases h with h | h | h | h | h
    · exact Or.inr ⟨_, h⟩
    · exact Or.inr ⟨_, h⟩
    · exact Or.inr ⟨_, h⟩
    · exact Or.inr ⟨_, h⟩
    · exact ih ch h
  | case2 a b =>
    intro ch h
    simp only [b64Encode, List.mem_cons, List.mem_singleton, List.not_mem_nil, or_false] at h
    rcases h with h | h | h | h
    · exact Or.inr ⟨_, h⟩
    · exact Or.inr ⟨_, h⟩
    · exact Or.inr ⟨_, h⟩
    · exact Or.inl h
  | case3 a =>
    intro ch h
    simp only [b64Encode, List.mem_cons, List.mem_singleton, List.not_mem_nil, or_false] at h
    rcases h with h | h | h | h
    · exact Or.inr ⟨_, h⟩
    · exact Or.inr ⟨_, h⟩
    · exact Or.inl h
    · exact Or.inl h
  | case4 => intro ch h; simp [b64Encode] at h

/-- No `#`, line feed or carriage return occurs in a base64 encoding. -/
theorem b64Encode_no_special (x : List Nat) :
    ∀ c ∈ b64Encode x, c ≠ 35 ∧ c ≠ 10 ∧ c ≠ 13 := by
  intro c hc
  rcases b64Encode_chars x c hc with h | ⟨n, h⟩
  · subst h; decide
  · subst h
    have := b64Char_not_special n
    exact ⟨this.2.1, this.2.2.1, this.2.2.2⟩

theorem b64DecodeQuanta_encode (x : List Nat) (hx : IsBytes x) :
    b64DecodeQuanta (b64Encode x) = some x := by
  induction x using b64Encode.induct with
  | case1 a b c rest ih =>
    have ha : a < 256 := hx a (by simp)
    have hb : b < 256 := hx b (by simp)
    have hc : c < 256 := hx c (by simp)
    have hrest : IsBytes rest := fun y hy => hx y (by simp [hy])
    simp only [b64Encode]
    rw [b64DecodeQuanta_full _ _ _ _ _ (b64Char_not_special _).1 (b64Char_not_special _).1]
    rw [b64Val_b64Char _ (by omega), b64Val_b64Char _ (by omega), b64Val_b64Char _ (by omega),
      b64Val_b64Char _ (by omega), ih hrest]
    simp only []
    congr 2
    · omega
    · congr 1
      · omega
      · congr 1
        omega
  | case2 a b =>
    have ha : a < 256 := hx a (by simp)
    have hb : b < 256 := hx b (by simp)
    simp only [b64Encode]
    rw [b64DecodeQuanta]
    · rw [b64Val_b64Char _ (by omega), b64Val_b64Char _ (by omega), b64Val_b64Char _ (by omega)]
      simp only []
      congr 2
      · omega
      · congr 1
        omega
    · intro h; exact (b64Char_not_special _).1 h
  | case3 a =>
    have ha : a < 256 := hx a (by simp)
    simp only [b64Encode]
    rw [b64DecodeQuanta]
    rw [b64Val_b64Char _ (by omega), b64Val_b64Char _ (by omega)]
    simp only []
    congr 2
    omega
  | case4 => simp [b64Encode, b64DecodeQuanta]

/-- Decoding undoes encoding on byte strings. -/
theorem b64Decode_encode (x : List Nat) (hx : IsBytes x) : b64Decode (b64Encode x) = some x := by
  unfold b64Decode
  rw [List.filter_eq_self.mpr]
  · exact b64DecodeQuanta_encode x hx
  · intro c hc
    have := b64Encode_no_special x c hc
    simp [this.2.1, this.2.2]


theorem splitByte_no_sep (sep : Nat) (b : List Nat) (h : sep ∉ b) : splitByte sep b = [b] := by
  induction b with
  | nil => rfl
  | cons c cs ih =>
    have hc : c ≠ sep := fun e => h (by simp [e])
    have hcs : sep ∉ cs := fun e => h (List.mem_cons_of_mem _ e)
    simp [splitByte, hc, ih hcs]

theorem splitByte_first (sep : Nat) (a rest : List Nat) (h : sep ∉ a) :
    splitByte sep (a ++ sep :: rest) = a :: splitByte sep rest := by
  induction a with
  | nil => simp [splitByte]
  | cons c cs ih =>
    have hc : c ≠ sep := fun e => h (by simp [e])
    have hcs : sep ∉ cs := fun e => h (List.mem_cons_of_mem _ e)
    simp [splitByte, hc, ih hcs]

theorem b64Encode_no_hash (x : List Nat) : 35 ∉ b64Encode x :=
  fun h => (b64Encode_no_special x 35 h).1 rfl


theorem stringToRunesAux_ascii (l : List Nat) :
    ∀ fuel, l.length ≤ fuel → (∀ b ∈ l, b < 128) → stringToRunesAux fuel l = l := by
  induction l with
  | nil => intro fuel _ _; cases fuel <;> rfl
  | cons b rest ih =>
    intro fuel hf hb
    cases fuel with
    | zero => simp at hf
    | succ fuel =>
      have h0 : b < 128 := hb b (List.mem_cons_self _ _)
      have hd : decodeRune (b :: rest) = (b, 1) := by simp [decodeRune, h0]
      simp only [stringToRunesAux, hd, List.drop_succ_cons, List.drop_zero]
      rw [ih fuel (by simpa using hf) (fun x hx => hb x (List.mem_cons_of_mem _ hx))]

theorem runesToString_ascii (l : List Nat) (hb : ∀ b ∈ l, b < 128) : runesToString l = l := by
  induction l with
  | nil => rfl
  | cons b rest ih =>
    have h0 : b < 128 := hb b (List.mem_cons_self _ _)
    simp [runesToString, encodeRune, h0, ih (fun x hx => hb x (List.mem_cons_of_mem _ hx))]


theorem genericIds_eq_filter (u : List Nat) (es : List AoEntry) :
    genericIds u es = (es.filter fun e => decide (e.name ≠ u)).map fun e => e.id := by
  induction es with
  | nil => rfl
  | cons e es ih =>
    by_cases h : e.name = u
    · simp [genericIds, h, ih]
    · simp [genericIds, h, ih]

theorem longRemovalMixedPayload_fits : longRemovalMixedPayload.Fits := by
  have h1 : longRemovalMixedPayload.removed.length = 32765 := List.length_replicate _ _
  refine ⟨by rw [h1]; omega, ?_, by decide, ?_, ?_⟩
  · intro r hr
    have hr1 : r ∈ List.replicate 32765 0 := hr
    rw [List.eq_of_mem_replicate hr1]
    omega
  · intro e he
    have he1 : e ∈ [selfEntry 1, otherEntry 3] := he
    simp only [List.mem_cons, List.mem_singleton, List.not_mem_nil, or_false] at he1
    rcases he1 with h | h <;> subst h <;> decide
  · rw [payload_encode_length]
    have h2 : (encodeEntries longRemovalMixedPayload.added).length = 24 := by decide
    rw [h1, h2]
    omega


/-! ## Lemmas on sequences of packets -/

theorem sameSession_refl (a : Peer) : sameSession a a := ⟨rfl, rfl, rfl, rfl, rfl, rfl⟩

theorem sameSession_trans {a b c : Peer} (h1 : sameSession a b) (h2 : sameSession b c) :
    sameSession a c :=
  ⟨h1.1.trans h2.1, h1.2.1.trans h2.2.1, h1.2.2.1.trans h2.2.2.1,
    h1.2.2.2.1.trans h2.2.2.2.1, h1.2.2.2.2.1.trans h2.2.2.2.2.1,
    h1.2.2.2.2.2.trans h2.2.2.2.2.2⟩

/-- Whatever the packet, a `FirstSrp` case that returns leaves the name, the side and
the handshake values of the sender as they were. -/
theorem caseFirstSrp_sameSession (env : Env) (w w1 : World) (b : Bool)
    (h : caseFirstSrp env w = .ok (w1, b)) : sameSession w1.src w.src := by
  unfold caseFirstSrp at h
  repeat' split at h
  all_goals first
    | (cases h; done)
    | (cases h; exact ⟨rfl, rfl, rfl, rfl, rfl, rfl⟩)

/-- Whatever the packet, a `SrpBytesM` case that returns leaves the name, the side and
the handshake values of the sender as they were. -/
theorem caseSrpBytesM_sameSession (env : Env) (w w1 : World) (b : Bool)
    (h : caseSrpBytesM env w = .ok (w1, b)) : sameSession w1.src w.src := by
  simp only [caseSrpBytesM] at h
  repeat' split at h
  all_goals first
    | (cases h; done)
    | (cases h; exact ⟨rfl, rfl, rfl, rfl, rfl, rfl⟩)

/-- In a buffer without spare capacity a command read as `0x51` means the packet
starts with `00 51`. -/
theorem cmd_is_srpBytesA (d : Slice) (b : List Nat) (hspare : d.spare = [])
    (hs : d.slice 0 2 = .ok b) (hb : beUint16 b = .ok 0x51) : d.bytes.take 2 = [0, 0x51] := by
  unfold Slice.slice at hs
  split at hs
  · injection hs with hs
    simp only [Slice.arr, hspare, List.append_nil, List.drop_zero, Nat.sub_zero] at hs
    rw [hs]
    unfold beUint16 at hb
    split at hb
    · rename_i b0 b1 tl
      injection hb with hb
      have h0 : b0 = 0 := by omega
      have h1 : b1 = 0x51 := by omega
      subst h0 h1
      have hl : (0 :: 0x51 :: tl).length ≤ 2 := by
        rw [← hs]; exact List.length_take_le _ _
      have : tl = [] := by
        cases tl with
        | nil => rfl
        | cons x xs => simp at hl
      rw [this]
    · cases hb
  · cases hs

/-- A packet other than `SrpBytesA`, whoever sent it, leaves the name, the side and
the handshake values of the sender as they were when the dispatcher returns. -/
theorem processPktCommand_sameSession (env : Env) (w w1 : World) (b : Bool)
    (hspare : w.data.spare = []) (hcmd : w.data.bytes.take 2 ≠ [0, 0x51])
    (h : processPktCommand env w = .ok (w1, b)) : sameSession w1.src w.src := by
  unfold processPktCommand at h
  split at h
  · cases h
  · rename_i bs hs
    split at h
    · cases h
    · rename_i cmd hb
      split at h
      · split at h
        · split at h
          · cases h
          · cases h; exact ⟨rfl, rfl, rfl, rfl, rfl, rfl⟩
        · cases h; exact sameSession_refl _
      · split at h
        · cases h; exact sameSession_refl _
        · split at h
          · cases h; exact ⟨rfl, rfl, rfl, rfl, rfl, rfl⟩
          · split at h
            · exact caseFirstSrp_sameSession env w w1 b h
            · split at h
              · rename_i h51
                subst h51
                exact absurd (cmd_is_srpBytesA w.data bs hspare hs hb) hcmd
              · split at h
                · exact caseSrpBytesM_sameSession env w w1 b h
                · cases h; exact sameSession_refl _

/-- Packets other than `SrpBytesA`, dispatched one after the other, leave the name,
the side and the handshake values of the sender as they were. -/
theorem dispatchAll_sameSession (env : Env) (pkts : List (List Nat)) :
    ∀ (w w1 : World), (∀ pkt ∈ pkts, pkt.take 2 ≠ [0, 0x51]) →
      dispatchAll env w pkts = .ok w1 → sameSession w1.src w.src := by
  induction pkts with
  | nil =>
    intro w w1 _ h
    simp only [dispatchAll] at h
    cases h
    exact sameSession_refl _
  | cons pkt pkts ih =>
    intro w w1 hp h
    simp only [dispatchAll] at h
    split at h
    · cases h
    · rename_i w2 b hstep
      have h1 := processPktCommand_sameSession env _ w2 b rfl
        (hp pkt (List.mem_cons_self _ _)) hstep
      have h2 := ih w2 w1 (fun x hx => hp x (List.mem_cons_of_mem _ hx)) h
      exact sameSession_trans h2 h1

/-- A `SrpBytesA` step whose credential decodes and whose handshake succeeds stores
the salt, the client value and the two values of the handshake, and sends them. -/
theorem srpBytesA_stores_session (env : Env) (w : World) (A tl s v B K : List Nat)
    (hsrv : w.src.isSrv = false) (hsudo : w.src.sudoMode = false)
    (hdata : w.data.bytes = srpBytesAPacket A ++ tl) (hlen : A.length ≤ 65531)
    (hopen : env.dbOpens = true) (hread : env.readOk = true)
    (hcred : decodeVerifierAndSalt (readAuthItem w.auth w.src.username) = .ok (some (s, v)))
    (hhs : env.handshake A v = some (B, K)) :
    processPktCommand env w =
      .ok ({ w with
              src := { w.src with srp_s := s, srp_A := A, srp_B := B, srp_K := K },
              sent := w.sent ++ [srpBytesSB s B] }, true) := by
  rw [processPktCommand_srpBytesA env w (u16be A.length ++ A ++ tl) hsrv
    (by rw [hdata]; simp [srpBytesAPacket])]
  have hd : w.data.bytes = [0, 0x51] ++ u16be A.length ++ A ++ tl := by
    rw [hdata]; simp [srpBytesAPacket]
  have h1 := slice_len16 w.data 0 0x51 A.length (A ++ tl) (by rw [hd]; simp)
  have h2 := field16_first w.data 0 0x51 A tl hd (by omega)
  simp only [caseSrpBytesA, hsudo, h1, beUint16_u16be,
    Nat.mod_eq_of_lt (show A.length < 65536 by omega), h2, hopen, hread, hcred, hhs]
  simp


/-! ## Lemmas on `Proxy` -/

/-- Iterations that do not end the loop only add their calls to those made so far. -/
theorem Proxy_relayed (srcIsSrv : Bool) (pre : List Tick) :
    ∀ (rest : List Tick) (acc evs : List Event), relayed srcIsSrv pre = some evs →
      Proxy srcIsSrv (pre ++ rest) acc = Proxy srcIsSrv rest (acc ++ evs) := by
  induction pre with
  | nil =>
    intro rest acc evs h
    simp only [relayed, Option.some.injEq] at h
    subst h
    simp
  | cons t pre ih =>
    intro rest acc evs h
    simp only [relayed] at h
    split at h
    · rename_i hf
      obtain ⟨hs, hd⟩ := hf
      rw [List.cons_append, Proxy]
      simp only [hs, hd, not_true_eq_false, if_false]
      split at h
      · cases h
      · simp only [Option.map_eq_some'] at h
        obtain ⟨evs1, h1, h2⟩ := h
        subst h2
        rw [ih rest _ evs1 h1]
        simp
      · split at h
        · cases h
        · rename_i chat _
          simp only [Option.map_eq_some'] at h
          obtain ⟨evs1, h1, h2⟩ := h
          subst h2
          by_cases hch : (chat = true ∧ t.chatHandled = true)
          · rw [if_pos hch, if_pos hch, ih rest _ evs1 h1]
            simp
          · rw [if_neg hch, if_neg hch]
            by_cases hfl : t.sendFails = true
            · rw [if_pos hfl, if_pos hfl, ih rest _ evs1 h1]
              simp
            · rw [if_neg hfl, if_neg hfl, ih rest _ evs1 h1]
              simp
    · cases h

/-- No iteration that lets the loop go on calls `SendDisco` or `Close`. -/
theorem relayed_no_teardown (srcIsSrv : Bool) (pre : List Tick) :
    ∀ evs, relayed srcIsSrv pre = some evs → Event.sendDisco ∉ evs ∧ Event.close ∉ evs := by
  induction pre with
  | nil =>
    intro evs h
    simp only [relayed, Option.some.injEq] at h
    subst h
    simp
  | cons t pre ih =>
    intro evs h
    simp only [relayed] at h
    split at h
    · split at h
      · cases h
      · simp only [Option.map_eq_some'] at h
        obtain ⟨evs1, h1, h2⟩ := h
        subst h2
        have := ih evs1 h1
        simp [this.1, this.2]
      · split at h
        · cases h
        · simp only [Option.map_eq_some'] at h
          obtain ⟨evs1, h1, h2⟩ := h
          subst h2
          have := ih evs1 h1
          split <;> [skip; split] <;> simp [this.1, this.2]
    · cases h


/-! ## Claims on `processAoRmAdd` -/

/-- Claim C1: evaluation at the failing input. A packet with no removals and two
entries for the player `ab`, sent to the peer `ab` whose `initAoReceived` is already
true, is well formed (its header count `2` equals the two entries present); the
returned packet has both entries cut out, so no entry is present, while its
addition-count field reads `1`. -/
theorem processAoRmAdd_count_stale_after_two_cuts :
    twoSelfPayload.Fits ∧
    readCounts twoSelfPayload.encode = some (0, 2) ∧
    entriesPresent 2 (entryBytes twoSelfPayload.encode) = some 2 ∧
    ((processAoRmAdd tightCap (peerAb true) ⟨twoSelfPayload.encode, []⟩).toOption.map
        fun r => r.2.bytes) = some [0, 49, 0, 0, 0, 1] ∧
    readCounts [0, 49, 0, 0, 0, 1] = some (0, 1) ∧
    entriesPresent 2 (entryBytes [0, 49, 0, 0, 0, 1]) = some 0 := by
  refine ⟨by decide, by decide, by decide, by decide, by decide, by decide⟩

/-- Claim C2: evaluation at the failing input. A well-formed packet with 32765
removal entries and exactly one entry for the player `ab`, sent to the peer `ab`
whose `initAoReceived` is false: the call panics and returns no packet. -/
theorem processAoRmAdd_panics_on_long_removal_list :
    longRemovalPayload.Fits ∧
    longRemovalPayload.added = [selfEntry 1] ∧ (selfEntry 1).name = (peerAb false).username ∧
    processAoRmAdd tightCap (peerAb false) ⟨longRemovalPayload.encode, []⟩ = .error .panic :=
  ⟨longRemovalPayload_fits, rfl, rfl,
    processAoRmAdd_header_offset_wraps _ _ _ _ longRemovalPayload_fits (List.length_replicate _ _)⟩

/-- A payload with at most `32764` removals and exactly one entry named after the
peer: the first time the packet comes back unchanged and the flag is set; once the
flag is set the entry is cut out, the addition count is lowered by one and all other
bytes stay in order. -/
theorem processAoRmAdd_single_self_entry (grow : GrowCap) (p : Peer) (rm : List Nat)
    (before after : List AoEntry) (self : AoEntry) (spare : List Nat)
    (hfit : (AoPayload.mk rm (before ++ self :: after)).Fits) (hRm : rm.length ≤ 32764)
    (hs : self.name = p.username) (hb : ∀ e ∈ before, e.name ≠ p.username)
    (ha : ∀ e ∈ after, e.name ≠ p.username) :
    ∃ q spare1,
      processAoRmAdd grow p ⟨(AoPayload.mk rm (before ++ self :: after)).encode, spare⟩
        = .ok (q, ⟨if p.initAoReceived then
                     [0, 0x31] ++ u16be rm.length ++ encodeIds rm ++
                       u16be ((before ++ self :: after).length - 1) ++
                       encodeEntries before ++ encodeEntries after
                   else (AoPayload.mk rm (before ++ self :: after)).encode, spare1⟩) ∧
      q.initAoReceived = true ∧
      spare1.length = spare.length + (if p.initAoReceived then self.encode.length else 0) := by
  obtain ⟨spare1, hlen, hrun⟩ := processAoRmAdd_encoded grow p ⟨rm, before ++ self :: after⟩ spare
    hfit hRm
  have hk := keptEntries_single p.username p.initAoReceived before after self hs hb ha
  have hsp := anySpliced_single p.username p.initAoReceived before after self hs hb ha
  have hout : (AoPayload.mk rm (before ++ self :: after)).rewritten p.username p.initAoReceived
      = if p.initAoReceived then
          [0, 0x31] ++ u16be rm.length ++ encodeIds rm ++
            u16be ((before ++ self :: after).length - 1) ++
            encodeEntries before ++ encodeEntries after
        else (AoPayload.mk rm (before ++ self :: after)).encode := by
    unfold AoPayload.rewritten
    simp only [hk, hsp]
    cases p.initAoReceived <;>
      simp [AoPayload.encode, encodeEntries_append, List.append_assoc]
  rw [hout] at hrun hlen
  refine ⟨_, spare1, hrun, ?_, ?_⟩
  · simp [seenAfter, hs]
  · cases h : p.initAoReceived
    · rw [h] at hlen
      simp only [Bool.false_eq_true, if_false] at hlen ⊢
      omega
    · rw [h] at hlen
      simp only [if_true, AoPayload.encode, List.length_append, encodeEntries_append,
        encodeEntries, u16be_length] at hlen ⊢
      omega


/-- The single-entry theorem at a packet with one removal and the entry of the
player between two other entries. -/
theorem processAoRmAdd_single_self_entry_example :
    ∃ q spare1,
      processAoRmAdd tightCap (peerAb true) ⟨mixedPayload.encode, []⟩
        = .ok (q, ⟨[0, 49, 0, 1, 0, 9, 0, 2] ++ (otherEntry 3).encode ++ (otherEntry 4).encode,
               spare1⟩) ∧ q.initAoReceived = true ∧ spare1.length = 12 :=
  processAoRmAdd_single_self_entry tightCap (peerAb true) [9] [otherEntry 3] [otherEntry 4]
    (selfEntry 1) [] (by decide) (by decide) rfl (by decide) (by decide)

/-- Claim C3: evaluation at the failing input. The packet removes the ids `5` and `7`
and adds an object with id `7`; the peer's object set is empty beforehand. After the
call id `7` is marked present although it is listed in the removal list. -/
theorem processAoRmAdd_skips_second_removal :
    removeAddPayload.Fits ∧ removeAddPayload.removed = [5, 7] ∧
    (∀ k, (peerAb false).aoIDs k = false) ∧
    ((processAoRmAdd tightCap (peerAb false) ⟨removeAddPayload.encode, []⟩).toOption.map
        fun r => (r.1.aoIDs 5, r.1.aoIDs 7)) = some (false, true) := by
  refine ⟨by decide, rfl, fun _ => rfl, by decide⟩

/-- For an encoded payload with at most `32764` removals the object set after the
call is the set before it with the non-zero ids of the entries not named after the
peer marked present and then the ids at the even byte offsets `0, 2, 4, …` below
`countRm` of the removal list, that is its first `⌈countRm / 2⌉` ids, marked absent. -/
theorem processAoRmAdd_object_set (grow : GrowCap) (p : Peer) (P : AoPayload) (spare : List Nat)
    (hfit : P.Fits) (hRm : P.removed.length ≤ 32764) (k : Nat) :
    ((processAoRmAdd grow p ⟨P.encode, spare⟩).toOption.map fun r => r.1.aoIDs k)
      = some (markRemoved (markAdded p.aoIDs (genericIds p.username P.added))
          (P.removed.take ((P.removed.length + 1) / 2)) k) := by
  obtain ⟨spare1, _, hrun⟩ := processAoRmAdd_encoded grow p P spare hfit hRm
  rw [hrun]
  rfl

/-- Claim C8, counterexample: a three-byte buffer without spare capacity, shorter
than the header; the slice expression `data[2:4]` panics. -/
theorem processAoRmAdd_panics_on_short_buffer :
    (processAoRmAdd tightCap (peerAb false) ⟨[0, 49, 0], []⟩).returns = false := by
  decide

/-- For every packet that encodes a payload whose fields fit their widths, with at
most 32764 removal entries, whatever the spare capacity of the buffer and the state
of the peer, every slice expression of `processAoRmAdd` is within bounds and the call
returns. -/
theorem processAoRmAdd_returns_on_encoded (grow : GrowCap) (p : Peer) (P : AoPayload) (spare : List Nat)
    (hfit : P.Fits) (hRm : P.removed.length ≤ 32764) :
    (processAoRmAdd grow p ⟨P.encode, spare⟩).returns = true := by
  obtain ⟨spare1, _, hrun⟩ := processAoRmAdd_encoded grow p P spare hfit hRm
  rw [hrun]
  rfl

/-- The call returns on a packet with one removal and three entries in a buffer with
two spare bytes. -/
theorem processAoRmAdd_returns_on_encoded_witness :
    mixedPayload.Fits ∧ mixedPayload.removed.length ≤ 32764 ∧
    (processAoRmAdd tightCap (peerAb true) ⟨mixedPayload.encode, [1, 2]⟩).returns = true :=
  ⟨by decide, by decide,
    processAoRmAdd_returns_on_encoded tightCap (peerAb true) mixedPayload [1, 2] (by decide) (by decide)⟩

/-- What `processAoRmAdd` does on six malformed buffers for the peer `ab` whose flag is
set, none with spare capacity but the fifth: a removal count past the end, an
addition count past the end, a name length past the end and the initialization-data
length of a repeated entry past the end all panic; a three-byte buffer with three
spare bytes is returned as it is; an entry for another object whose
initialization-data length points past the end is kept and its id `7` marked
present. -/
theorem processAoRmAdd_malformed_examples :
    processAoRmAdd tightCap (peerAb true) ⟨[0, 49, 0, 2, 0, 5], []⟩ = .error .panic ∧
    processAoRmAdd tightCap (peerAb true) ⟨[0, 49, 0, 0, 0, 1], []⟩ = .error .panic ∧
    processAoRmAdd tightCap (peerAb true)
      ⟨[0, 49, 0, 0, 0, 1, 0, 7, 101, 0, 0, 0, 5, 1, 0, 100, 97, 99], []⟩ = .error .panic ∧
    processAoRmAdd tightCap (peerAb true)
      ⟨[0, 49, 0, 0, 0, 1, 0, 1, 101, 0, 0, 0, 200, 1, 0, 2, 97, 98], []⟩ = .error .panic ∧
    ((processAoRmAdd tightCap (peerAb true) ⟨[0, 49, 0], [0, 0, 0]⟩).toOption.map
      fun r => r.2) = some ⟨[0, 49, 0], [0, 0, 0]⟩ ∧
    ((processAoRmAdd tightCap (peerAb true)
        ⟨[0, 49, 0, 0, 0, 1, 0, 7, 101, 0, 0, 0, 200, 1, 0, 2, 97, 99], []⟩).toOption.map
      fun r => (r.2.bytes, r.1.aoIDs 7))
      = some ([0, 49, 0, 0, 0, 1, 0, 7, 101, 0, 0, 0, 200, 1, 0, 2, 97, 99], true) := by
  refine ⟨rfl, rfl, rfl, rfl, by decide, by decide⟩

/-- On `wrapPacket` the second `append` argument is `data[0:]`, the whole packet, and
the result outgrows the array. With a runtime that doubles the capacity the call
returns a packet of 142 bytes, the copy of the packet behind the first six bytes is
read as the second entry, whose name is taken from beyond the length, and its first
two bytes `00 31` are marked present as the id `49`; with a runtime that allocates no
spare capacity the call does not return. -/
theorem processAoRmAdd_reallocation_example :
    ((processAoRmAdd doubleCap (peerAb true) ⟨wrapPacket, []⟩).toOption.map
      fun r => (r.2.bytes.length, r.2.bytes.take 12, r.1.aoIDs 49))
      = some (142, [0, 49, 0, 0, 0, 1, 0, 49, 0, 0, 0, 1], true) ∧
    (processAoRmAdd tightCap (peerAb true) ⟨wrapPacket, []⟩).returns = false := by
  refine ⟨by decide!, by decide!⟩

/-- Claim C8, amended: for every capacity rule of the runtime and every state of the
peer: on every packet that encodes a payload whose
fields fit their widths, with at most 32764 removal entries, whatever the spare
capacity of the buffer, no slice expression is out of range and the call returns; on
every buffer whose capacity is below four it panics; and on every buffer whose
removal count, at most 32764, points past its capacity, it panics. -/
theorem processAoRmAdd_checks_no_length (grow : GrowCap) (p : Peer) :
    (∀ (P : AoPayload) (spare : List Nat), P.Fits → P.removed.length ≤ 32764 →
      (processAoRmAdd grow p ⟨P.encode, spare⟩).returns = true) ∧
    (∀ data : Slice, data.cap < 4 → processAoRmAdd grow p data = .error .panic) ∧
    (∀ (data : Slice) (b : List Nat) (countRm : Nat), data.slice 2 4 = .ok b →
      beUint16 b = .ok countRm → countRm ≤ 32764 → data.cap < 6 + countRm * 2 →
      processAoRmAdd grow p data = .error .panic) := by
  refine ⟨fun P spare hfit hRm => ?_, fun data h => ?_, fun data b c hs hb hc hcap => ?_⟩
  · obtain ⟨spare1, _, hrun⟩ := processAoRmAdd_encoded grow p P spare hfit hRm
    rw [hrun]
    rfl
  · exact processAoRmAdd_panics_below_header grow p data h
  · exact processAoRmAdd_panics_on_removal_count grow p data b c hs hb hc hcap

/-- Claim C8, witness: a packet with one removal and three entries in a buffer with two
spare bytes is processed; the three-byte buffer `00 31 00` and the six-byte buffer
`00 31 00 02 00 05`, whose removal count `2` needs ten bytes, both without spare
capacity, panic. -/
theorem processAoRmAdd_checks_no_length_witness :
    (mixedPayload.Fits ∧ mixedPayload.removed.length ≤ 32764 ∧
      (processAoRmAdd tightCap (peerAb true) ⟨mixedPayload.encode, [1, 2]⟩).returns = true) ∧
    (Slice.cap ⟨[0, 49, 0], []⟩ < 4 ∧
      processAoRmAdd tightCap (peerAb true) ⟨[0, 49, 0], []⟩ = .error .panic) ∧
    (Slice.slice ⟨[0, 49, 0, 2, 0, 5], []⟩ 2 4 = .ok [0, 2] ∧ beUint16 [0, 2] = .ok 2 ∧
      Slice.cap ⟨[0, 49, 0, 2, 0, 5], []⟩ < 6 + 2 * 2 ∧
      processAoRmAdd tightCap (peerAb true) ⟨[0, 49, 0, 2, 0, 5], []⟩ = .error .panic) :=
  ⟨⟨by decide, by decide,
      (processAoRmAdd_checks_no_length tightCap (peerAb true)).1 mixedPayload [1, 2]
        (by decide) (by decide)⟩,
    ⟨by decide,
      (processAoRmAdd_checks_no_length tightCap (peerAb true)).2.1 ⟨[0, 49, 0], []⟩ (by decide)⟩,
    ⟨rfl, rfl, by decide,
      (processAoRmAdd_checks_no_length tightCap (peerAb true)).2.2 ⟨[0, 49, 0, 2, 0, 5], []⟩
        [0, 2] 2 rfl rfl (by decide) (by decide)⟩⟩

/-! ## Claims on `command.go` and `auth.go` -/

/-- For a proof of at most 65531 bytes: the peer enters sudo mode and is sent
`00 04` exactly when the proof equals the expected one byte for byte, and is sent
`00 05` with `sudoMode` left false otherwise. -/
theorem srpBytesM_accepts_exactly_equal_proof (env : Env) (w : World) (M tl : List Nat)
    (hsrv : w.src.isSrv = false) (hsudo : w.src.sudoMode = false)
    (hdata : w.data.bytes = srpBytesMPacket M ++ tl) (hlen : M.length ≤ 65531)
    (hM : IsBytes M)
    (hM2 : IsBytes
      (env.calculateM w.src.username w.src.srp_s w.src.srp_A w.src.srp_B w.src.srp_K)) :
    processPktCommand env w =
      .ok (if M = env.calculateM w.src.username w.src.srp_s w.src.srp_A w.src.srp_B w.src.srp_K
           then { w with src := { w.src with sudoMode := true }, sent := w.sent ++ [[0, 4]] }
           else { w with sent := w.sent ++ [[0, 5]] }, true) := by
  rw [processPktCommand_srpBytesM env w (u16be M.length ++ M ++ tl) hsrv
    (by rw [hdata]; simp [srpBytesMPacket]), caseSrpBytesM_result env w M tl hsudo hdata hlen]
  by_cases h : M = env.calculateM w.src.username w.src.srp_s w.src.srp_A w.src.srp_B w.src.srp_K
  · rw [if_pos ((constantTimeCompare_eq_one_iff _ _ hM hM2).mpr h), if_pos h]
  · rw [if_neg (fun hc => h ((constantTimeCompare_eq_one_iff _ _ hM hM2).mp hc)), if_neg h]

/-- With a proof of 65532 bytes or more the `uint16` bound `4+lenM` wraps and
`pkt.Data[4 : 4+lenM]` panics. -/
theorem srpBytesM_proof_length_wraps (env : Env) (p : Peer) (auth : AuthTable) (M : List Nat)
    (hsrv : p.isSrv = false) (hsudo : p.sudoMode = false)
    (h1 : 65532 ≤ M.length) (h2 : M.length < 65536) :
    processPktCommand env (clientWorld p (srpBytesMPacket M) auth) = .error .panic := by
  rw [processPktCommand_srpBytesM env _ (u16be M.length ++ M) hsrv
    (by simp [clientWorld, srpBytesMPacket])]
  exact caseSrpBytesM_wraps env _ M [] hsudo (by simp [clientWorld]) h1 h2

/-- Claim C4: evaluation at the failing input. A `SrpBytesM` packet that carries a
length-prefixed proof of 65532 bytes, from a client peer outside sudo mode: the
dispatcher panics, and no accept or deny message is sent. -/
theorem srpBytesM_panics_on_long_proof :
    (List.replicate 65532 0).length = 65532 ∧ (peerAb false).sudoMode = false ∧
    processPktCommand demoEnv
      (clientWorld (peerAb false) (srpBytesMPacket (List.replicate 65532 0)) noCredentials)
      = .error .panic :=
  ⟨List.length_replicate _ _, rfl,
    srpBytesM_proof_length_wraps demoEnv (peerAb false) noCredentials _ rfl rfl
      (by rw [List.length_replicate]) (by rw [List.length_replicate]; omega)⟩

/-- Two runs with `demoEnv` standing in for the library. First: a
peer that has never sent `SrpBytesA` and holds no handshake values sends the proof
`CalculateM` gives for empty values, and is put into sudo mode. Second: a peer holding
the values `01, 02, 03, 04` sends a wrong proof and is denied, the values are still
there afterwards, and the right proof for them is then accepted. -/
theorem srpBytesM_accepted_without_session :
    ((processPktCommand demoEnv
        (clientWorld (peerAbAuth false [] [] [] []) (srpBytesMPacket [97, 98]) noCredentials)).toOption.map
      fun r => (r.1.src.sudoMode, r.1.sent)) = some (true, [[0, 4]]) ∧
    ((dispatchAll demoEnv (clientWorld (peerAbAuth false [1] [2] [3] [4]) [] noCredentials)
        [srpBytesMPacket [0], srpBytesMPacket [97, 98, 1, 2, 3, 4]]).toOption.map
      fun r => (r.src.sudoMode, r.sent, r.src.srp_s, r.src.srp_A, r.src.srp_B, r.src.srp_K))
      = some (true, [[0, 5], [0, 4]], [1], [2], [3], [4]) := by
  refine ⟨by decide, by rfl⟩

/-- One step: a `SrpBytesM` packet with a proof of at most 65531 bytes is
consumed and leaves the four stored handshake values as they were; `sudoMode` is true
afterwards exactly when it was true before or the proof equals what `CalculateM`
gives for the peer's name and the four values stored at that moment. -/
theorem srpBytesM_keeps_session (env : Env) (w : World) (M tl : List Nat)
    (hsrv : w.src.isSrv = false)
    (hdata : w.data.bytes = srpBytesMPacket M ++ tl) (hlen : M.length ≤ 65531)
    (hM : IsBytes M)
    (hM2 : IsBytes
      (env.calculateM w.src.username w.src.srp_s w.src.srp_A w.src.srp_B w.src.srp_K)) :
    ∃ w1, processPktCommand env w = .ok (w1, true) ∧
      w1.src.srp_s = w.src.srp_s ∧ w1.src.srp_A = w.src.srp_A ∧
      w1.src.srp_B = w.src.srp_B ∧ w1.src.srp_K = w.src.srp_K ∧
      (w1.src.sudoMode = true ↔
        (w.src.sudoMode = true ∨
          M = env.calculateM w.src.username w.src.srp_s w.src.srp_A w.src.srp_B w.src.srp_K)) := by
  cases hs : w.src.sudoMode
  · rw [srpBytesM_accepts_exactly_equal_proof env w M tl hsrv hs hdata hlen hM hM2]
    by_cases h : M = env.calculateM w.src.username w.src.srp_s w.src.srp_A w.src.srp_B w.src.srp_K
    · rw [if_pos h]
      exact ⟨_, rfl, rfl, rfl, rfl, rfl, by simp [h]⟩
    · rw [if_neg h]
      exact ⟨_, rfl, rfl, rfl, rfl, rfl, by simp [h, hs]⟩
  · rw [processPktCommand_srpBytesM env w (u16be M.length ++ M ++ tl) hsrv
      (by rw [hdata]; simp [srpBytesMPacket])]
    refine ⟨w, by simp [caseSrpBytesM, hs], rfl, rfl, rfl, rfl, by simp [hs]⟩

/-- The step at a peer holding `01, 02, 03, 04` and the wrong proof `00`. -/
theorem srpBytesM_keeps_session_witness :
    ∃ w1, processPktCommand demoEnv
        (clientWorld (peerAbAuth false [1] [2] [3] [4]) (srpBytesMPacket [0]) noCredentials)
          = .ok (w1, true) ∧
      w1.src.srp_s = [1] ∧ w1.src.srp_A = [2] ∧ w1.src.srp_B = [3] ∧ w1.src.srp_K = [4] ∧
      (w1.src.sudoMode = true ↔ (false = true ∨ [0] = [97, 98, 1, 2, 3, 4])) :=
  srpBytesM_keeps_session demoEnv
    (clientWorld (peerAbAuth false [1] [2] [3] [4]) (srpBytesMPacket [0]) noCredentials)
    [0] [] rfl rfl (by decide) (by decide) (by decide)


/-- For a `FirstSrp` packet whose fields end within the first 65535 bytes, with the
storage calls succeeding: in sudo mode the credential of the peer's name is rewritten
with `encodeVerifierAndSalt s v` and `sudoMode` is cleared; outside sudo mode nothing
changes; the packet is reported as consumed either way. -/
theorem firstSrp_writes_exactly_in_sudo_mode (env : Env) (w : World) (s v tl : List Nat)
    (hsrv : w.src.isSrv = false)
    (hdata : w.data.bytes = firstSrpPacket s v ++ tl)
    (hlen : 6 + s.length + v.length ≤ 65535)
    (hopen : env.dbOpens = true) (hwrite : env.writeOk = true) :
    processPktCommand env w =
      .ok (if w.src.sudoMode then
             { w with src := { w.src with sudoMode := false },
                      auth := modAuthItem w.auth w.src.username (encodeVerifierAndSalt s v) }
           else w, true) := by
  rw [processPktCommand_firstSrp env w (u16be s.length ++ s ++ u16be v.length ++ v ++ tl) hsrv
    (by rw [hdata]; simp [firstSrpPacket])]
  exact caseFirstSrp_result env w s v tl hdata hlen hopen hwrite

/-- With a salt of 65532 bytes or more the `uint16` bound `4+lenS` wraps and
`pkt.Data[4 : 4+lenS]` panics, after `sudoMode` has been cleared. -/
theorem firstSrp_salt_length_wraps (env : Env) (p : Peer) (auth : AuthTable) (s v : List Nat)
    (hsrv : p.isSrv = false) (hsudo : p.sudoMode = true)
    (h1 : 65532 ≤ s.length) (h2 : s.length < 65536) :
    processPktCommand env (clientWorld p (firstSrpPacket s v) auth) = .error .panic := by
  rw [processPktCommand_firstSrp env _ (u16be s.length ++ s ++ u16be v.length ++ v) hsrv
    (by simp [clientWorld, firstSrpPacket])]
  exact caseFirstSrp_wraps env _ s v [] hsudo (by simp [clientWorld]) h1 h2

/-- Claim C6: evaluation at the failing input. A well-formed `FirstSrp` packet with
a salt of 65532 bytes and the verifier `07`, from the client peer `ab` in sudo mode,
with the storage calls succeeding: the dispatcher panics and nothing is written. -/
theorem firstSrp_panics_on_long_salt :
    (List.replicate 65532 0).length = 65532 ∧ (peerAbAuth true [] [] [] []).sudoMode = true ∧
    demoEnv.dbOpens = true ∧ demoEnv.writeOk = true ∧
    processPktCommand demoEnv
      (clientWorld (peerAbAuth true [] [] [] []) (firstSrpPacket (List.replicate 65532 0) [7])
        abCredentials) = .error .panic :=
  ⟨List.length_replicate _ _, rfl, rfl, rfl,
    firstSrp_salt_length_wraps demoEnv _ abCredentials _ [7] rfl rfl
      (by rw [List.length_replicate]) (by rw [List.length_replicate]; omega)⟩

/-- A `SrpBytesA` packet from a peer outside sudo mode whose name has no stored
credential: `decodeVerifierAndSalt` indexes the one-element split of the empty string
at `[1]` and the dispatcher panics. -/
theorem srpBytesA_empty_credential_panics (env : Env) (w : World) (A tl : List Nat)
    (hsrv : w.src.isSrv = false) (hsudo : w.src.sudoMode = false)
    (hdata : w.data.bytes = srpBytesAPacket A ++ tl) (hlen : A.length ≤ 65531)
    (hopen : env.dbOpens = true) (hread : env.readOk = true)
    (hrow : w.auth w.src.username = none) :
    processPktCommand env w = .error .panic := by
  rw [processPktCommand_srpBytesA env w (u16be A.length ++ A ++ tl) hsrv
    (by rw [hdata]; simp [srpBytesAPacket])]
  exact caseSrpBytesA_no_credential env w A tl hsudo hdata hlen hopen hread
    (by simp [readAuthItem, sqlitePassword, hrow])

/-- Claim C7: evaluation at the failing input. The client peer `ab`, outside sudo
mode and without a row in the storage, sends `SrpBytesA` with the value `01 02 03`:
the dispatcher panics. -/
theorem srpBytesA_panics_without_credential :
    noCredentials (peerAb false).username = none ∧
    processPktCommand demoEnv
      (clientWorld (peerAb false) (srpBytesAPacket [1, 2, 3]) noCredentials) = .error .panic :=
  ⟨rfl, srpBytesA_empty_credential_panics demoEnv _ [1, 2, 3] [] rfl rfl rfl (by decide)
    rfl rfl rfl⟩

/-- The `UPDATE` of `sqliteProvider.SetPassword` touches no row of another name. -/
theorem sqliteSetPassword_other (t : AuthTable) (name password n : List Nat) (h : n ≠ name) :
    sqliteSetPassword t name password n = t n := by
  simp [sqliteSetPassword, h]

/-- The package-level `SetPassword` leaves the row of `name` as it was, whenever
`name` differs from the encoded credential: `Password(name)` returns afterwards what
it returned before. -/
theorem SetPassword_keeps_credential (t : AuthTable) (name verifier salt : List Nat)
    (h : name ≠ encodeVerifierAndSalt salt verifier) :
    (SetPassword true t name verifier salt).2 = true ∧
    Password true (SetPassword true t name verifier salt).1 name = Password true t name := by
  refine ⟨rfl, ?_⟩
  simp [SetPassword, Password, sqlitePassword, sqliteSetPassword_other _ _ _ _ h]

/-- Claim C10: evaluation at the failing input. The user `ab` has the stored salt
`01` and verifier `02`; `SetPassword("ab", 03, 04)` returns a nil error, and
`Password("ab")` afterwards returns the verifier `02` and the salt `01`. -/
theorem SetPassword_then_Password_returns_old_tokens :
    abCredentials [97, 98] = some (encodeVerifierAndSalt [1] [2]) ∧
    (SetPassword true abCredentials [97, 98] [3] [4]).2 = true ∧
    (Password true (SetPassword true abCredentials [97, 98] [3] [4]).1 [97, 98]).toOption
      = some (.tokens [2] [1]) := by
  refine ⟨by decide, rfl, by decide⟩



/-- Claim C5, amended: take any library, a client peer outside sudo mode, and a
sequence of packets that starts with a `SrpBytesA` packet whose step succeeds (the
storage opens and reads, the stored credential decodes to the salt `s` and the
verifier `v`, and `srp.Handshake` answers `B` and `K`) and goes on with packets of
which none is a `SrpBytesA` packet, all dispatched without a panic. At the end the
peer holds the values `s`, `A`, `B`, `K`, whatever `SrpBytesM` packets were among
them, accepted or denied. A `SrpBytesM` packet with a proof of at most 65531 bytes
that arrives then is consumed and leaves the four values as they are; when the peer
is in sudo mode already it stays there and nothing is sent; when it is not, it is put
into sudo mode and sent `00 04` if the proof equals what `CalculateM` gives for
the name and the four stored values, and is left outside and sent `00 05` if it
does not. -/
theorem srpBytesM_judged_by_stored_session (env : Env) (w0 w2 : World)
    (A s v B K M : List Nat) (pkts : List (List Nat))
    (hsrv : w0.src.isSrv = false) (hsudo : w0.src.sudoMode = false)
    (hA : A.length ≤ 65531) (hopen : env.dbOpens = true) (hread : env.readOk = true)
    (hcred : decodeVerifierAndSalt (readAuthItem w0.auth w0.src.username) = .ok (some (s, v)))
    (hhs : env.handshake A v = some (B, K))
    (hpk : ∀ pkt ∈ pkts, pkt.take 2 ≠ [0, 0x51])
    (hrun : dispatchAll env w0 (srpBytesAPacket A :: pkts) = .ok w2)
    (hM : M.length ≤ 65531) (hMb : IsBytes M)
    (hM2 : IsBytes (env.calculateM w0.src.username s A B K)) :
    w2.src.srp_s = s ∧ w2.src.srp_A = A ∧ w2.src.srp_B = B ∧ w2.src.srp_K = K ∧
    ∃ w3, processPktCommand env { w2 with data := ⟨srpBytesMPacket M, []⟩ } = .ok (w3, true) ∧
      w3.src.srp_s = s ∧ w3.src.srp_A = A ∧ w3.src.srp_B = B ∧ w3.src.srp_K = K ∧
      (w2.src.sudoMode = true → w3.src.sudoMode = true ∧ w3.sent = w2.sent) ∧
      (w2.src.sudoMode = false → M = env.calculateM w0.src.username s A B K →
        w3.src.sudoMode = true ∧ w3.sent = w2.sent ++ [[0, 4]]) ∧
      (w2.src.sudoMode = false → M ≠ env.calculateM w0.src.username s A B K →
        w3.src.sudoMode = false ∧ w3.sent = w2.sent ++ [[0, 5]]) := by
  have hstepA := srpBytesA_stores_session env { w0 with data := ⟨srpBytesAPacket A, []⟩ }
    A [] s v B K hsrv hsudo (by simp) hA hopen hread hcred hhs
  simp only [dispatchAll, hstepA] at hrun
  have hsame := dispatchAll_sameSession env pkts _ w2 hpk hrun
  obtain ⟨hu, hi, h1, h2, h3, h4⟩ := hsame
  simp only [] at hu hi h1 h2 h3 h4
  refine ⟨h1, h2, h3, h4, ?_⟩
  have hsrv2 : w2.src.isSrv = false := hi.trans hsrv
  have hcalc : env.calculateM w2.src.username w2.src.srp_s w2.src.srp_A w2.src.srp_B
      w2.src.srp_K = env.calculateM w0.src.username s A B K := by rw [hu, h1, h2, h3, h4]
  cases hs : w2.src.sudoMode
  · have hstep := srpBytesM_accepts_exactly_equal_proof env
      { w2 with data := ⟨srpBytesMPacket M, []⟩ } M [] hsrv2 hs (by simp) hM hMb
      (by show IsBytes (env.calculateM w2.src.username w2.src.srp_s w2.src.srp_A
            w2.src.srp_B w2.src.srp_K)
          rw [hcalc]; exact hM2)
    simp only [] at hstep
    rw [hcalc] at hstep
    rw [hstep]
    by_cases he : M = env.calculateM w0.src.username s A B K
    · rw [if_pos he]
      exact ⟨_, rfl, h1, h2, h3, h4, by simp, fun _ _ => ⟨rfl, rfl⟩, fun _ hne => absurd he hne⟩
    · rw [if_neg he]
      exact ⟨_, rfl, h1, h2, h3, h4, by simp, fun _ heq => absurd heq he,
        fun _ _ => ⟨hs, rfl⟩⟩
  · rw [processPktCommand_srpBytesM env { w2 with data := ⟨srpBytesMPacket M, []⟩ }
      (u16be M.length ++ M) hsrv2 (by simp [srpBytesMPacket])]
    refine ⟨{ w2 with data := ⟨srpBytesMPacket M, []⟩ }, by simp [caseSrpBytesM, hs],
      h1, h2, h3, h4, fun _ => ⟨hs, rfl⟩, by simp, by simp⟩

/-- For every library: the peer `ab` holding the values `01, 02, 03, 04` still holds
them after a `SrpBytesM` packet with the proof `00`, whether that proof was accepted
or denied. -/
theorem srpBytesM_leaves_session_for_every_library : ∀ env : Env,
    ((processPktCommand env
        (clientWorld (peerAbAuth false [1] [2] [3] [4]) (srpBytesMPacket [0]) noCredentials)).toOption.map
      fun r => (r.1.src.srp_s, r.1.src.srp_A, r.1.src.srp_B, r.1.src.srp_K))
      = some ([1], [2], [3], [4]) := by
  intro env
  rw [processPktCommand_srpBytesM env _ (u16be [0].length ++ [0]) rfl (by decide),
    caseSrpBytesM_result env _ [0] [] rfl (by decide) (by decide)]
  split <;> rfl

/-- Folding the exclusive or over a list paired with itself leaves `0`. -/
theorem xorFold_self (x : List Nat) : xorFold 0 x x = 0 := by
  induction x with
  | nil => rfl
  | cons a x ih => simp [xorFold, ih]

/-- `subtle.ConstantTimeCompare` of a slice with itself is `1`. -/
theorem constantTimeCompare_self (x : List Nat) : constantTimeCompare x x = 1 := by
  simp [constantTimeCompare, xorFold_self, constantTimeByteEq]

/-- For every library: a client peer outside sudo mode whose four handshake values
are empty, as they are when it has sent no `SrpBytesA`, is put into sudo mode and
sent `00 04` when its proof is what `CalculateM` gives for its name and four empty
values. -/
theorem srpBytesM_accepted_on_fresh_peer (env : Env) (p : Peer) (auth : AuthTable)
    (hsrv : p.isSrv = false) (hsudo : p.sudoMode = false)
    (hs : p.srp_s = []) (hA : p.srp_A = []) (hB : p.srp_B = []) (hK : p.srp_K = [])
    (hlen : (env.calculateM p.username [] [] [] []).length ≤ 65531) :
    ∃ w1, processPktCommand env
        (clientWorld p (srpBytesMPacket (env.calculateM p.username [] [] [] [])) auth)
          = .ok (w1, true) ∧ w1.src.sudoMode = true ∧ w1.sent = [[0, 4]] := by
  rw [processPktCommand_srpBytesM env _
      (u16be (env.calculateM p.username [] [] [] []).length ++ env.calculateM p.username [] [] [] [])
      hsrv
    (by simp [clientWorld, srpBytesMPacket]),
    caseSrpBytesM_result env _ (env.calculateM p.username [] [] [] []) [] hsudo
      (by simp [clientWorld]) hlen]
  have hc : constantTimeCompare (env.calculateM p.username [] [] [] [])
      (env.calculateM p.username p.srp_s p.srp_A p.srp_B p.srp_K) = 1 := by
    rw [hs, hA, hB, hK]
    exact constantTimeCompare_self _
  simp only [clientWorld, hc, if_true]
  exact ⟨_, rfl, rfl, by simp⟩


/-- Claim C5, counterexample. With `demoEnv` standing in for the library, the peer
`ab` sends `SrpBytesA` with the value `09 09`, then `SrpBytesM` with the wrong proof
`00`, then `SrpBytesM` with the proof for the stored values: the second proof is
accepted on the session the first one failed on, and the four values are still
stored after both. And for every library, a peer holding the values `01, 02, 03, 04`
still holds them after a `SrpBytesM` packet. -/
theorem srpBytesM_reuses_failed_session :
    ((dispatchAll demoEnv freshWorld
        [srpBytesAPacket [9, 9], srpBytesMPacket [0],
          srpBytesMPacket [97, 98, 1, 9, 9, 2, 9, 9]]).toOption.map
      fun r => (r.src.sudoMode, r.sent, r.src.srp_s, r.src.srp_A, r.src.srp_B, r.src.srp_K))
      = some (true, [srpBytesSB [1] [2], [0, 5], [0, 4]], [1], [9, 9], [2], [9, 9]) ∧
    (∀ env : Env,
      ((processPktCommand env (clientWorld (peerAbAuth false [1] [2] [3] [4])
          (srpBytesMPacket [0]) noCredentials)).toOption.map
        fun r => (r.1.src.srp_s, r.1.src.srp_A, r.1.src.srp_B, r.1.src.srp_K))
        = some ([1], [2], [3], [4])) :=
  ⟨by rfl, srpBytesM_leaves_session_for_every_library⟩

/-- Claim C5, witness: under `demoEnv` the peer `ab` sends `SrpBytesA` with the value
`09 09` and a `SrpBytesM` with the wrong proof `00`, which is denied; the values
`01`, `09 09`, `02`, `09 09` are stored. The `SrpBytesM` with the proof for these
values that arrives next is consumed, leaves them stored, puts the peer into sudo
mode and is answered `00 04`. -/
theorem srpBytesM_judged_by_stored_session_witness :
    dispatchAll demoEnv freshWorld [srpBytesAPacket [9, 9], srpBytesMPacket [0]]
      = .ok deniedWorld ∧
    deniedWorld.src.sudoMode = false ∧
    [97, 98, 1, 9, 9, 2, 9, 9]
      = demoEnv.calculateM freshWorld.src.username [1] [9, 9] [2] [9, 9] ∧
    ∃ w3, processPktCommand demoEnv
        { deniedWorld with data := ⟨srpBytesMPacket [97, 98, 1, 9, 9, 2, 9, 9], []⟩ }
          = .ok (w3, true) ∧
      w3.src.srp_s = [1] ∧ w3.src.srp_A = [9, 9] ∧ w3.src.srp_B = [2] ∧
      w3.src.srp_K = [9, 9] ∧ w3.src.sudoMode = true ∧
      w3.sent = [srpBytesSB [1] [2], [0, 5], [0, 4]] := by
  obtain ⟨_, _, _, _, w3, h3, hs, hA, hB, hK, _, hacc, _⟩ :=
    srpBytesM_judged_by_stored_session demoEnv freshWorld deniedWorld [9, 9] [1] [2] [2]
      [9, 9] [97, 98, 1, 9, 9, 2, 9, 9] [srpBytesMPacket [0]] rfl rfl (by decide) rfl rfl
      rfl rfl (by decide) rfl (by decide) (by decide) (by decide)
  exact ⟨rfl, rfl, rfl, w3, h3, hs, hA, hB, hK, (hacc rfl rfl).1, (hacc rfl rfl).2⟩

/-! ## Claims on `proxy.go` -/

/-- The events a run of `Proxy` appends while the loop keeps going are logs and
sends; the teardown pair follows a `break` and nothing follows the early `return`. -/
theorem Proxy_events (srcIsSrv : Bool) (ticks : List Tick) :
    ∀ (events out : List Event),
      (Proxy srcIsSrv ticks events = .returned out →
        ∃ mid, out = events ++ mid ++ [.sendDisco, .close] ∧
          Event.sendDisco ∉ mid ∧ Event.close ∉ mid) ∧
      (Proxy srcIsSrv ticks events = .returnedEarly out →
        ∃ mid, out = events ++ mid ∧ Event.sendDisco ∉ mid ∧ Event.close ∉ mid) := by
  induction ticks with
  | nil => intro events out; simp [Proxy]
  | cons t ticks ih =>
    intro events out
    unfold Proxy
    by_cases hs : t.srcForward = true
    · by_cases hd : t.dstForward = true
      · simp only [hs, hd, not_true_eq_false, if_false]
        cases hr : t.recv with
        | closed =>
          cases srcIsSrv
          · simp only [Bool.false_eq_true, not_false_eq_true, if_true]
            refine ⟨fun h => ?_, fun h => by simp at h⟩
            injection h with h
            exact ⟨[.log, .leave], by simp [← h], by simp, by simp⟩
          · simp only [not_true_eq_false, if_false]
            refine ⟨fun h => ?_, fun h => by simp at h⟩
            injection h with h
            exact ⟨[.log], by simp [← h], by simp, by simp⟩
        | failed =>
          simp only []
          obtain ⟨h1, h2⟩ := ih (events ++ [.log]) out
          refine ⟨fun h => ?_, fun h => ?_⟩
          · obtain ⟨mid, e, a, b⟩ := h1 h
            exact ⟨.log :: mid, by simp [e], by simp [a], by simp [b]⟩
          · obtain ⟨mid, e, a, b⟩ := h2 h
            exact ⟨.log :: mid, by simp [e], by simp [a], by simp [b]⟩
        | pkt data =>
          simp only []
          cases hc : isClientChat srcIsSrv data with
          | error e => simp
          | ok chat =>
            simp only []
            by_cases hch : (chat = true ∧ t.chatHandled = true)
            · rw [if_pos hch]
              exact ih events out
            · rw [if_neg hch]
              by_cases hf : t.sendFails = true
              · rw [if_pos hf]
                obtain ⟨h1, h2⟩ := ih (events ++ [.send data, .log]) out
                refine ⟨fun h => ?_, fun h => ?_⟩
                · obtain ⟨mid, e, a, b⟩ := h1 h
                  exact ⟨.send data :: .log :: mid, by simp [e], by simp [a], by simp [b]⟩
                · obtain ⟨mid, e, a, b⟩ := h2 h
                  exact ⟨.send data :: .log :: mid, by simp [e], by simp [a], by simp [b]⟩
              · rw [if_neg hf]
                obtain ⟨h1, h2⟩ := ih (events ++ [.send data]) out
                refine ⟨fun h => ?_, fun h => ?_⟩
                · obtain ⟨mid, e, a, b⟩ := h1 h
                  exact ⟨.send data :: mid, by simp [e], by simp [a], by simp [b]⟩
                · obtain ⟨mid, e, a, b⟩ := h2 h
                  exact ⟨.send data :: mid, by simp [e], by simp [a], by simp [b]⟩
      · simp only [hs, hd, not_true_eq_false, if_false, not_false_eq_true, if_true]
        refine ⟨fun h => ?_, fun h => by simp at h⟩
        injection h with h
        exact ⟨[], by simp [← h], by simp, by simp⟩
    · simp only [hs, not_false_eq_true, if_true]
      refine ⟨fun h => by simp at h, fun h => ?_⟩
      injection h with h
      exact ⟨[], by simp [← h], by simp, by simp⟩


/-- Claim C9, counterexample: `src.Forward()` is false in the first iteration; the
run has returned and has sent no disconnect notification and closed nothing. -/
theorem Proxy_returns_early_without_teardown :
    Proxy false [⟨.pkt [0, 35], false, true, false, false⟩] [] = .returnedEarly [] := by
  decide

/-- A run of `Proxy` that left its loop by `break` ends with `dst.SendDisco` and
`dst.Close` and makes neither call before; a run that took the early `return` makes
neither call. -/
theorem Proxy_teardown_after_break (srcIsSrv : Bool) (ticks : List Tick) (out : List Event) :
    (Proxy srcIsSrv ticks [] = .returned out →
      ∃ mid, out = mid ++ [.sendDisco, .close] ∧
        Event.sendDisco ∉ mid ∧ Event.close ∉ mid) ∧
    (Proxy srcIsSrv ticks [] = .returnedEarly out →
      Event.sendDisco ∉ out ∧ Event.close ∉ out) := by
  obtain ⟨h1, h2⟩ := Proxy_events srcIsSrv ticks [] out
  refine ⟨fun h => ?_, fun h => ?_⟩
  · obtain ⟨mid, e, a, b⟩ := h1 h
    exact ⟨mid, by simpa using e, a, b⟩
  · obtain ⟨mid, e, a, b⟩ := h2 h
    have : out = mid := by simpa using e
    subst this
    exact ⟨a, b⟩

/-- The two shapes at a client-side run that forwards one packet and then finds the
source closed, and at a run that forwards one packet and then finds `src.Forward()`
false. -/
theorem Proxy_teardown_after_break_witness :
    (∃ mid, [Event.send [0, 35], .log, .leave, .sendDisco, .close]
        = mid ++ [.sendDisco, .close] ∧ Event.sendDisco ∉ mid ∧ Event.close ∉ mid) ∧
    (Event.sendDisco ∉ [Event.send [0, 35]] ∧ Event.close ∉ [Event.send [0, 35]]) :=
  ⟨(Proxy_teardown_after_break false
      [⟨.pkt [0, 35], true, true, false, false⟩, ⟨.closed, true, true, false, false⟩] _).1
      (by decide),
   (Proxy_teardown_after_break false
      [⟨.pkt [0, 35], true, true, false, false⟩, ⟨.pkt [0, 35], false, true, false, false⟩] _).2
      (by decide)⟩

/-- Claim C9, amended: let the iterations `pre` all let the loop go on (both
forwarding flags true and the receive returning a transient error or a packet on
which the test for a chat message does not panic), making the calls `evs`, and let `t` be the next
iteration. If `src.Forward()` is false in `t`, `Proxy` returns having made the calls
`evs` only. If `src.Forward()` is true and `dst.Forward()` false, it returns having
made the calls `evs`, then `dst.SendDisco` and `dst.Close`. If both are true and
`src.Recv()` returned `ErrClosed`, it returns having made the calls `evs`, the log
call, the leave calls when `src` is a client, then `dst.SendDisco` and `dst.Close`.
Neither `dst.SendDisco` nor `dst.Close` is among `evs`. -/
theorem Proxy_exits (srcIsSrv : Bool) (pre : List Tick) (t : Tick) (post : List Tick)
    (evs : List Event) (hpre : relayed srcIsSrv pre = some evs) :
    (t.srcForward = false →
      Proxy srcIsSrv (pre ++ t :: post) [] = .returnedEarly evs) ∧
    (t.srcForward = true → t.dstForward = false →
      Proxy srcIsSrv (pre ++ t :: post) [] = .returned (evs ++ [.sendDisco, .close])) ∧
    (t.srcForward = true → t.dstForward = true → t.recv = .closed →
      Proxy srcIsSrv (pre ++ t :: post) []
        = .returned (evs ++ (if srcIsSrv = true then [.log] else [.log, .leave])
            ++ [.sendDisco, .close])) ∧
    Event.sendDisco ∉ evs ∧ Event.close ∉ evs := by
  have hp := Proxy_relayed srcIsSrv pre (t :: post) [] evs hpre
  rw [hp, List.nil_append]
  refine ⟨?_, ?_, ?_, relayed_no_teardown srcIsSrv pre evs hpre⟩
  · intro hs
    simp [Proxy, hs]
  · intro hs hd
    simp [Proxy, hs, hd]
  · intro hs hd hr
    cases srcIsSrv <;> simp [Proxy, hs, hd, hr]

/-- Claim C9, witness: after one forwarded packet, an iteration with `src.Forward()`
false, one with `dst.Forward()` false, and one whose receive returns `ErrClosed`. -/
theorem Proxy_exits_witness :
    relayed false [⟨.pkt [0, 35], true, true, false, false⟩] = some [.send [0, 35]] ∧
    Proxy false ([⟨.pkt [0, 35], true, true, false, false⟩]
        ++ ⟨.pkt [0, 35], false, true, false, false⟩ :: []) []
      = .returnedEarly [.send [0, 35]] ∧
    Proxy false ([⟨.pkt [0, 35], true, true, false, false⟩]
        ++ ⟨.pkt [0, 35], true, false, false, false⟩ :: []) []
      = .returned ([.send [0, 35]] ++ [.sendDisco, .close]) ∧
    Proxy false ([⟨.pkt [0, 35], true, true, false, false⟩]
        ++ ⟨.closed, true, true, false, false⟩ :: []) []
      = .returned ([.send [0, 35]] ++ (if false = true then [.log] else [.log, .leave])
          ++ [.sendDisco, .close]) :=
  ⟨by decide,
   (Proxy_exits false [⟨.pkt [0, 35], true, true, false, false⟩]
      ⟨.pkt [0, 35], false, true, false, false⟩ [] [.send [0, 35]] (by decide)).1 rfl,
   (Proxy_exits false [⟨.pkt [0, 35], true, true, false, false⟩]
      ⟨.pkt [0, 35], true, false, false, false⟩ [] [.send [0, 35]] (by decide)).2.1 rfl rfl,
   (Proxy_exits false [⟨.pkt [0, 35], true, true, false, false⟩]
      ⟨.closed, true, true, false, false⟩ [] [.send [0, 35]] (by decide)).2.2.1 rfl rfl rfl⟩


/-! ## Claims on the stored credentials -/

/-- The encoder on the test vectors of RFC 4648: the encodings of the prefixes of
`foobar` are `Zg==`, `Zm8=`, `Zm9v`, `Zm9vYg==`, `Zm9vYmE=` and `Zm9vYmFy`. -/
theorem b64Encode_rfc4648 :
    b64Encode [] = [] ∧
    b64Encode [102] = [90, 103, 61, 61] ∧
    b64Encode [102, 111] = [90, 109, 56, 61] ∧
    b64Encode [102, 111, 111] = [90, 109, 57, 118] ∧
    b64Encode [102, 111, 111, 98] = [90, 109, 57, 118, 89, 103, 61, 61] ∧
    b64Encode [102, 111, 111, 98, 97] = [90, 109, 57, 118, 89, 109, 69, 61] ∧
    b64Encode [102, 111, 111, 98, 97, 114] = [90, 109, 57, 118, 89, 109, 70, 121] := by
  decide

/-- Claim C11: for all byte strings `s` and `v`, `encodeVerifierAndSalt s v` is the
base64 encoding of `s`, one `#` (byte 35) and the base64 encoding of `v`; it holds
exactly one `#`; and `decodeVerifierAndSalt` returns `(s, v)` for it, with a nil
error. -/
theorem decodeVerifierAndSalt_encode (s v : List Nat) (hs : IsBytes s) (hv : IsBytes v) :
    encodeVerifierAndSalt s v = b64Encode s ++ [35] ++ b64Encode v ∧
    (encodeVerifierAndSalt s v).count 35 = 1 ∧
    decodeVerifierAndSalt (encodeVerifierAndSalt s v) = .ok (some (s, v)) := by
  refine ⟨rfl, ?_, ?_⟩
  · simp only [encodeVerifierAndSalt, List.count_append,
      List.count_eq_zero.mpr (b64Encode_no_hash s), List.count_eq_zero.mpr (b64Encode_no_hash v)]
    simp
  · have hsplit : splitByte 35 (encodeVerifierAndSalt s v) = [b64Encode s, b64Encode v] := by
      have : encodeVerifierAndSalt s v = b64Encode s ++ 35 :: b64Encode v := by
        simp [encodeVerifierAndSalt]
      rw [this, splitByte_first 35 _ _ (b64Encode_no_hash s),
        splitByte_no_sep 35 _ (b64Encode_no_hash v)]
    simp only [decodeVerifierAndSalt, hsplit, b64Decode_encode s hs, b64Decode_encode v hv]

/-- Claim C11, witness: the salt `01 02` and the verifier `03`. -/
theorem decodeVerifierAndSalt_encode_witness :
    IsBytes [1, 2] ∧ IsBytes [3] ∧
    encodeVerifierAndSalt [1, 2] [3] = b64Encode [1, 2] ++ [35] ++ b64Encode [3] ∧
    (encodeVerifierAndSalt [1, 2] [3]).count 35 = 1 ∧
    decodeVerifierAndSalt (encodeVerifierAndSalt [1, 2] [3]) = .ok (some ([1, 2], [3])) :=
  ⟨by decide, by decide, decodeVerifierAndSalt_encode [1, 2] [3] (by decide) (by decide)⟩

/-- On a fresh name and a password of ASCII bytes, `postgresProvider.Password` returns
after `CreateUser` the password that was passed in, as `sqliteProvider.Password`
does. -/
theorem postgresPassword_after_createUser (t : AuthTable) (name pw : List Nat)
    (hrow : t name = none) (hpw : ∀ b ∈ pw, b < 128) :
    postgresPassword (postgresCreateUser t name pw) name = .ok pw ∧
    sqlitePassword (sqliteCreateUser t name pw) name = pw := by
  have hall : ∀ b ∈ [35, 49, 35] ++ pw, b < 128 := by
    intro b hb
    rcases List.mem_append.mp hb with h | h
    · simp at h; omega
    · exact hpw b h
  have hr : stringToRunes ([35, 49, 35] ++ pw) = [35, 49, 35] ++ pw :=
    stringToRunesAux_ascii _ _ (Nat.le_refl _) hall
  constructor
  · simp only [postgresPassword, postgresCreateUser, hrow, Option.isNone_none, and_self,
      if_true, Option.getD_some, hr]
    rw [if_pos (by simp)]
    simp [runesToString_ascii pw hpw]
  · simp [sqlitePassword, sqliteCreateUser, hrow]

/-- After `SetPassword` on a name that has a row, `postgresProvider.Password` returns
the new password of ASCII bytes without its first three bytes, and panics when the
password has fewer than three. -/
theorem postgresPassword_after_setPassword (t : AuthTable) (name pw : List Nat)
    (hrow : (t name).isSome = true) (hpw : ∀ b ∈ pw, b < 128) :
    postgresPassword (postgresSetPassword t name pw) name
      = if 3 ≤ pw.length then .ok (pw.drop 3) else .error .panic := by
  have hr : stringToRunes pw = pw := stringToRunesAux_ascii _ _ (Nat.le_refl _) hpw
  have hd : ∀ b ∈ pw.drop 3, b < 128 := fun b hb => hpw b (List.mem_of_mem_drop hb)
  simp only [postgresPassword, postgresSetPassword, hrow, and_self, if_true, Option.getD_some,
    hr, runesToString_ascii _ hd]

/-- Claim C12: evaluation at the failing inputs. First: the user `ab` is created and
its password then set to `BA==#Aw==`; `sqliteProvider.Password` returns that string,
`postgresProvider.Password` returns `=#Aw==`, the string without its first three
characters. Second: for a name without a row `sqliteProvider.Password` returns the
empty string and `postgresProvider.Password` panics. -/
theorem postgresPassword_differs_from_sqlitePassword :
    ((runSqlite noCredentials
        [.createUser [97, 98] (encodeVerifierAndSalt [1] [2]),
         .setPassword [97, 98] (encodeVerifierAndSalt [4] [3]),
         .password [97, 98]] []).toOption.map fun r => r.2)
      = some [[66, 65, 61, 61, 35, 65, 119, 61, 61]] ∧
    ((runPostgres noCredentials
        [.createUser [97, 98] (encodeVerifierAndSalt [1] [2]),
         .setPassword [97, 98] (encodeVerifierAndSalt [4] [3]),
         .password [97, 98]] []).toOption.map fun r => r.2)
      = some [[61, 35, 65, 119, 61, 61]] ∧
    ((runSqlite noCredentials [.password [97, 98]] []).toOption.map fun r => r.2)
      = some [[]] ∧
    runPostgres noCredentials [.password [97, 98]] [] = .error .panic := by
  refine ⟨by decide, by decide, by decide, rfl⟩


/-! ## Claims on the cursor of the addition loop -/

/-- For an encoded payload with at most `32764` removals, whatever entries are named
after the peer and wherever they sit, the addition loop of `processAoRmAdd`, started
as `processAoRmAdd` starts it, ends with `aoAdd` holding the ids of the entries not
named after the peer, in their order. -/
theorem aoAddLoop_collects_generic_ids (grow : GrowCap) (p : Peer) (P : AoPayload) (spare : List Nat)
    (hfit : P.Fits) (hRm : P.removed.length ≤ 32764) :
    ∃ st, aoAddLoop grow p.username P.removed.length P.added.length P.added.length
        ⟨⟨P.encode, spare⟩, 6 + P.removed.length * 2, p.initAoReceived, []⟩ = .ok st ∧
      st.aoAdd = (P.added.filter fun e => decide (e.name ≠ p.username)).map fun e => e.id := by
  obtain ⟨_, _, _, hes, hlen⟩ := hfit
  have hprelen : ([0, 0x31] ++ u16be P.removed.length ++ encodeIds P.removed
      ++ u16be P.added.length).length = 6 + P.removed.length * 2 := by
    simp [u16be_length, encodeIds_length]; omega
  obtain ⟨spare1, _, _, hloop⟩ := aoAddLoop_encoded grow p.username P.removed.length P.added.length
    hRm P.added ([0, 0x31] ++ u16be P.removed.length ++ encodeIds P.removed
      ++ u16be P.added.length) spare p.initAoReceived [] (by omega) hes hlen
  rw [hprelen] at hloop
  refine ⟨_, hloop, ?_⟩
  simp [genericIds_eq_filter]

/-- Claim C13: evaluation at the failing input. A well-formed packet with 32765
removal entries, an entry for the player `ab` and an entry for another object behind
it, sent to the peer `ab` whose `initAoReceived` is true: the call panics before the
addition loop reads any entry, so no id is collected. -/
theorem processAoRmAdd_panics_before_collecting_ids :
    longRemovalMixedPayload.Fits ∧
    longRemovalMixedPayload.added = [selfEntry 1, otherEntry 3] ∧
    (peerAb true).initAoReceived = true ∧
    processAoRmAdd tightCap (peerAb true) ⟨longRemovalMixedPayload.encode, []⟩ = .error .panic :=
  ⟨longRemovalMixedPayload_fits, rfl, rfl,
    processAoRmAdd_header_offset_wraps _ _ _ _ longRemovalMixedPayload_fits
      (List.length_replicate _ _)⟩

/-- The cut of the first entry of a packet without removals: the cursor `6` minus
the entry size `12` wraps to `4294967290` and comes back to `6`, the packet shrinks
from 42 to 30 bytes, and the loop goes on to collect the ids `3` and `4` of the two
entries behind. -/
theorem aoAddLoop_cursor_wrap_example :
    (aoAddStep tightCap [97, 98] 0 3 ⟨⟨selfFirstPayload.encode, []⟩, 6, true, []⟩).toOption.map
        (fun st => (st.si, st.data.bytes.length, st.aoAdd)) = some (6, 30, []) ∧
    (6 + (4294967296 - (7 + (selfEntry 1).initDataLen) % 4294967296)) % 4294967296
      = 4294967290 ∧
    (aoAddLoop tightCap [97, 98] 0 3 3 ⟨⟨selfFirstPayload.encode, []⟩, 6, true, []⟩).toOption.map
        (fun st => st.aoAdd) = some [3, 4] := by
  refine ⟨by decide, by decide, by decide⟩


end Multiserver
